import Mathlib

/-!
# Shallow embedding of the `datum` library (datum.ts)

`Datum` is an immutable calendar date (year, month, day) restricted to the
proleptic Gregorian calendar, years 0–9999.  Machine numbers are embedded as
`Nat` (every validation in the source rejects negative or non-integral
values before they are used, and all parsed string groups are digit
strings, so the natural numbers carry exactly the reachable values; the
`0 <= x` halves of the source's range assertions hold definitionally).
Throwing operations are embedded as `Option`-returning functions: `none`
models a thrown error (the source's `RangeError` / `TypeError` /
`Error` / assertion failures are not distinguished).  The source's
unbounded `while (true)` loops are embedded as structural recursion on a
fuel argument that provably dominates the number of iterations the loop
performs (each iteration strictly decreases the remaining day counter,
respectively strictly advances the month cursor, so the chosen fuel is
never exhausted on the paths the theorems speak about).
-/

namespace DatumLib

/-- `enum Weekday { Monday = 0, ..., Sunday = 6 }` from datum.ts. -/
inductive Weekday where
  | monday
  | tuesday
  | wednesday
  | thursday
  | friday
  | saturday
  | sunday
deriving DecidableEq, Repr

/-- The ordinal of a weekday, as in the source enum (`Monday = 0` … `Sunday = 6`). -/
def Weekday.toIndex : Weekday → Nat
  | .monday => 0
  | .tuesday => 1
  | .wednesday => 2
  | .thursday => 3
  | .friday => 4
  | .saturday => 5
  | .sunday => 6

/-- The raw field triple of `class Datum`.  Validity (the constructor's
checks) is tracked separately by `isValid`; every constructing operation of
the library goes through `mkDatum`, which performs those checks. -/
structure Datum where
  year : Nat
  month : Nat
  day : Nat
deriving DecidableEq, Repr

/-- `Datum.isLeapYear` from datum.ts:
`(year % 4 === 0 && year % 100 !== 0) || year % 400 === 0`.
(The source first asserts `0 <= year <= 9999`; call sites below either
check the range themselves first, exactly as the source does, or are used
in theorems restricted to that range.) -/
def isLeapYear (year : Nat) : Bool :=
  (year % 4 == 0 && year % 100 != 0) || year % 400 == 0

/-- `Datum.getDaysInMonth` from datum.ts: the fixed table
`[0, 31, leap ? 29 : 28, 31, 30, 31, 30, 31, 31, 30, 31, 30, 31][month]`.
Out-of-range indexing (which the source's preceding assertions exclude)
defaults to 0. -/
def getDaysInMonth (year month : Nat) : Nat :=
  [0, 31, if isLeapYear year then 29 else 28,
   31, 30, 31, 30, 31, 31, 30, 31, 30, 31].getD month 0

/-- `Datum.getDaysInYear` from datum.ts. -/
def getDaysInYear (year : Nat) : Nat :=
  if isLeapYear year then 366 else 365

/-- `Datum.assertIsYear` succeeds exactly on integers `0 <= year <= 9999`;
on `Nat` the lower bound is automatic. -/
def isYearOk (year : Nat) : Bool := year ≤ 9999

/-- `Datum.assertIsMonth` succeeds exactly on integers `1 <= month <= 12`. -/
def isMonthOk (month : Nat) : Bool := 1 ≤ month && month ≤ 12

/-- `Datum.assertIsDay` succeeds exactly on integers `1 <= day <= 31`. -/
def isDayOk (day : Nat) : Bool := 1 ≤ day && day ≤ 31

/-- The `Datum` constructor from datum.ts: asserts year, month and coarse
day ranges, then rejects `day > getDaysInMonth(year, month)`.  `none`
models a thrown error; `some` is the constructed instance. -/
def mkDatum (year month day : Nat) : Option Datum :=
  if isYearOk year && isMonthOk month && isDayOk day then
    if day > getDaysInMonth year month then none
    else some ⟨year, month, day⟩
  else none

/-- The constructor's postcondition as a checkable predicate on the field
triple: exactly the checks `mkDatum` performs. -/
def isValid (d : Datum) : Bool :=
  isYearOk d.year && isMonthOk d.month && isDayOk d.day &&
    d.day ≤ getDaysInMonth d.year d.month

/-- One step of JS `number.toString()` for a natural number: decimal
digits, most significant first, no leading zeros, `"0"` for 0.  Fuel-based
structural recursion (one unit per produced digit; `natToDecimal` passes
`n + 1`, which dominates the digit count). -/
def natToDecimalAux : Nat → Nat → List Char
  | 0, _ => []
  | fuel + 1, n =>
    if n < 10 then [Nat.digitChar n]
    else natToDecimalAux fuel (n / 10) ++ [Nat.digitChar (n % 10)]

/-- JS `number.toString()` on a non-negative integer. -/
def natToDecimal (n : Nat) : List Char :=
  natToDecimalAux (n + 1) n

/-- The loop of `padWithLeadingZeros` from datum.ts:
`while (result.length < targetLength) result = "0" + result`.  One fuel
unit per prepended zero; `targetLength` units always suffice. -/
def padLoop (targetLength : Nat) : Nat → List Char → List Char
  | 0, result => result
  | fuel + 1, result =>
    if result.length < targetLength then padLoop targetLength fuel ('0' :: result)
    else result

/-- `padWithLeadingZeros` from datum.ts, on strings as char lists. -/
def padWithLeadingZeros (str : List Char) (targetLength : Nat) : List Char :=
  padLoop targetLength targetLength str

/-- `Datum.toString` from datum.ts: `"YYYY-MM-DD"`, fields zero-padded to
widths 4, 2, 2. -/
def datumToString (d : Datum) : String :=
  ⟨padWithLeadingZeros (natToDecimal d.year) 4 ++
    '-' :: padWithLeadingZeros (natToDecimal d.month) 2 ++
    '-' :: padWithLeadingZeros (natToDecimal d.day) 2⟩

/-- ASCII decimal digit test (the `\d` of the source's regex). -/
def isDigitChar (c : Char) : Bool := 48 ≤ c.toNat && c.toNat ≤ 57

/-- `parseInt(str, 10)` on a string of decimal digits. -/
def digitsVal (cs : List Char) : Nat :=
  cs.foldl (fun acc c => acc * 10 + (c.toNat - 48)) 0

/-- `Datum.fromString` from datum.ts: rejects strings whose length is not
10 or that fail the anchored regex `^(\d{4})-(\d\d)-(\d\d)$` (both
rejections are thrown errors, hence `none`), then parses the three groups
in base 10 and delegates to the constructor. -/
def fromString (s : String) : Option Datum :=
  match s.data with
  | [y1, y2, y3, y4, h1, m1, m2, h2, d1, d2] =>
    if isDigitChar y1 && isDigitChar y2 && isDigitChar y3 && isDigitChar y4 &&
       h1 == '-' && isDigitChar m1 && isDigitChar m2 &&
       h2 == '-' && isDigitChar d1 && isDigitChar d2 then
      mkDatum (digitsVal [y1, y2, y3, y4]) (digitsVal [m1, m2]) (digitsVal [d1, d2])
    else none
  | _ => none

/-- `Datum.fromDate` from datum.ts, with the host `Date`'s observable
fields (full year, 0-indexed month, day-of-month) as arguments: re-bases
the month to 1-indexed and delegates to the constructor. -/
def fromDate (year month0 day : Nat) : Option Datum :=
  mkDatum year (month0 + 1) day

/-- `Datum.isEqual` from datum.ts. -/
def isEqual (a b : Datum) : Bool :=
  a.year == b.year && a.month == b.month && a.day == b.day

/-- `Datum.isBefore` from datum.ts. -/
def isBefore (a b : Datum) : Bool :=
  a.year < b.year ||
    (a.year == b.year && a.month < b.month) ||
    (a.year == b.year && a.month == b.month && a.day < b.day)

/-- `Datum.isAfter` from datum.ts. -/
def isAfter (a b : Datum) : Bool :=
  a.year > b.year ||
    (a.year == b.year && a.month > b.month) ||
    (a.year == b.year && a.month == b.month && a.day > b.day)

/-- `Datum.min` from datum.ts: the loop
`if (min == null || datum.isBefore(min)) min = datum` over the sequence,
starting from `null`. -/
def minDatum (datums : List Datum) : Option Datum :=
  datums.foldl
    (fun mn datum =>
      match mn with
      | none => some datum
      | some m => if isBefore datum m then some datum else some m)
    none

/-- `Datum.max` from datum.ts: the loop
`if (max == null || datum.isAfter(max)) max = datum` over the sequence. -/
def maxDatum (datums : List Datum) : Option Datum :=
  datums.foldl
    (fun mx datum =>
      match mx with
      | none => some datum
      | some m => if isAfter datum m then some datum else some m)
    none

/-- `Datum.daysUntilFirstDayOfNextMonth` from datum.ts:
`getDaysInMonth(year, month) - day + 1`. -/
def daysUntilFirstDayOfNextMonth (c : Datum) : Nat :=
  getDaysInMonth c.year c.month - c.day + 1

/-- The `while (true)` loop body of `Datum.addDays`, with a fuel argument
for structural termination.  One fuel unit per loop iteration; the loop
performs at most `daysToAdd + 1` iterations because every non-terminal
iteration removes `daysUntilFirstDayOfNextMonth >= 1` from `daysToAdd`,
so the `fuel = 0` branch is unreachable from `addDays`. -/
def addDaysLoop : Nat → Datum → Nat → Option Datum
  | 0, _, _ => none
  | fuel + 1, current, daysToAdd =>
    let daysUntilNextMonth := daysUntilFirstDayOfNextMonth current
    if daysToAdd < daysUntilNextMonth then
      mkDatum current.year current.month (current.day + daysToAdd)
    else if current.month == 12 then
      match mkDatum (current.year + 1) 1 1 with
      | none => none
      | some c => addDaysLoop fuel c (daysToAdd - daysUntilNextMonth)
    else
      match mkDatum current.year (current.month + 1) 1 with
      | none => none
      | some c => addDaysLoop fuel c (daysToAdd - daysUntilNextMonth)

/-- `Datum.addDays` from datum.ts.  The argument is a `Nat`, so the
source's integrality and non-negativity assertions hold by typing. -/
def addDays (d : Datum) (days : Nat) : Option Datum :=
  addDaysLoop (days + 1) d days

/-- The `while (true)` loop body of `Datum.subtractDays` (README variant of
datum.ts), with fuel.  In the source, stepping back from January of year 0
calls `getDaysInMonth(-1, 12)` whose year assertion throws; the explicit
`current.year == 0` test models that. -/
def subDaysLoop : Nat → Datum → Nat → Option Datum
  | 0, _, _ => none
  | fuel + 1, current, daysToSubtract =>
    let daysSincePreviousMonth := current.day
    if daysToSubtract < daysSincePreviousMonth then
      mkDatum current.year current.month (current.day - daysToSubtract)
    else if current.month == 1 then
      if current.year == 0 then none
      else
        match mkDatum (current.year - 1) 12 (getDaysInMonth (current.year - 1) 12) with
        | none => none
        | some c => subDaysLoop fuel c (daysToSubtract - daysSincePreviousMonth)
    else
      match mkDatum current.year (current.month - 1) (getDaysInMonth current.year (current.month - 1)) with
      | none => none
      | some c => subDaysLoop fuel c (daysToSubtract - daysSincePreviousMonth)

/-- `Datum.subtractDays` from the README variant of datum.ts. -/
def subtractDays (d : Datum) (days : Nat) : Option Datum :=
  subDaysLoop (days + 1) d days

/-- The `while (true)` loop of `Datum.deltaDays`, with fuel.  Each
iteration advances `current` by one month toward `untilD`, so the number
of iterations is bounded by the number of months between them, which for
dates in range is below 120013; `deltaDays` passes fuel 130000. -/
def deltaLoop : Nat → Datum → Datum → Nat → Option Nat
  | 0, _, _, _ => none
  | fuel + 1, current, untilD, acc =>
    if current.year == untilD.year && current.month == untilD.month then
      some (acc + Nat.dist current.day untilD.day)
    else
      let acc2 := acc + daysUntilFirstDayOfNextMonth current
      if current.month == 12 then
        match mkDatum (current.year + 1) 1 1 with
        | none => none
        | some c => deltaLoop fuel c untilD acc2
      else
        match mkDatum current.year (current.month + 1) 1 with
        | none => none
        | some c => deltaLoop fuel c untilD acc2

/-- `Datum.deltaDays` from datum.ts: returns 0 on equal dates, otherwise
walks the earlier date forward to the later one.  `Math.abs` on the final
day difference is `Nat.dist`.  The source's internal
`assert(!until.isEqual(current))` is the `isEqual untilD current` test
(its failure, an invariant violation, is modelled as `none`). -/
def deltaDays (a b : Datum) : Option Nat :=
  if isEqual a b then some 0
  else
    let untilD := if isAfter a b then a else b
    let current := if isBefore a b then a else b
    if isEqual untilD current then none
    else deltaLoop 130000 current untilD 0

/-- `Datum.weekday` from datum.ts: distance to the reference Monday
2019-08-26 modulo 7, mapped directly for dates on/after the reference and
with the complementary table for dates before it.  The reference date is
built by the constructor (`mkDatum`), as in the source; `none` models the
source's unreachable default branches (an invariant fault). -/
def weekday (d : Datum) : Option Weekday :=
  match mkDatum 2019 8 26 with
  | none => none
  | some referenceMonday =>
    match deltaDays d referenceMonday with
    | none => none
    | some delta =>
      let weekdayIndex := delta % 7
      if isBefore d referenceMonday then
        match weekdayIndex with
        | 6 => some .tuesday
        | 5 => some .wednesday
        | 4 => some .thursday
        | 3 => some .friday
        | 2 => some .saturday
        | 1 => some .sunday
        | 0 => some .monday
        | _ => none
      else
        match weekdayIndex with
        | 0 => some .monday
        | 1 => some .tuesday
        | 2 => some .wednesday
        | 3 => some .thursday
        | 4 => some .friday
        | 5 => some .saturday
        | 6 => some .sunday
        | _ => none

/-!
## Verification-side definitions

`toOrdinal` assigns each date its 1-based day number in the supported
range (0000-01-01 ↦ 1); it is the linear day count the month-walking
loops of the source are proved against.  The `spec…` definitions below
transcribe sentences of the specification (not the source) and are only
compared with the source-derived definitions.
-/

/-- Total number of days in years `0 … y-1`. -/
def daysBeforeYear : Nat → Nat
  | 0 => 0
  | y + 1 => daysBeforeYear y + getDaysInYear y

/-- Total number of days in months `1 … m-1` of the given year. -/
def daysBeforeMonth (year : Nat) : Nat → Nat
  | 0 => 0
  | 1 => 0
  | m + 2 => daysBeforeMonth year (m + 1) + getDaysInMonth year (m + 1)

/-- The 1-based linear day number of a date (0000-01-01 ↦ 1). -/
def toOrdinal (d : Datum) : Nat :=
  daysBeforeYear d.year + daysBeforeMonth d.year d.month + d.day

/-- The day number of the last representable date, 9999-12-31. -/
def maxOrdinal : Nat := toOrdinal ⟨9999, 12, 31⟩

/-- Modelled from the spec: the days-in-month table
`[31, 28/29, 31, 30, 31, 30, 31, 31, 30, 31, 30, 31]` with February's
entry 29 exactly when `isLeapYear` holds (month 1-indexed). -/
def specDaysInMonth (year month : Nat) : Nat :=
  [31, if isLeapYear year then 29 else 28,
   31, 30, 31, 30, 31, 31, 30, 31, 30, 31].getD (month - 1) 0

/-- Modelled from the spec: a string is accepted by `fromString` iff it
has length 10 and matches `^\d{4}-\d\d-\d\d$` (and denotes a valid date).
Written positionally, independently of `fromString`'s pattern match. -/
def specFormatOk (s : String) : Bool :=
  s.data.length == 10 &&
    isDigitChar (s.data.getD 0 ' ') && isDigitChar (s.data.getD 1 ' ') &&
    isDigitChar (s.data.getD 2 ' ') && isDigitChar (s.data.getD 3 ' ') &&
    s.data.getD 4 ' ' == '-' &&
    isDigitChar (s.data.getD 5 ' ') && isDigitChar (s.data.getD 6 ' ') &&
    s.data.getD 7 ' ' == '-' &&
    isDigitChar (s.data.getD 8 ' ') && isDigitChar (s.data.getD 9 ' ')

/-- Modelled from the spec: the first regex group (year), base 10. -/
def specYearOf (s : String) : Nat := digitsVal (s.data.take 4)

/-- Modelled from the spec: the second regex group (month), base 10. -/
def specMonthOf (s : String) : Nat := digitsVal ((s.data.drop 5).take 2)

/-- Modelled from the spec: the third regex group (day), base 10. -/
def specDayOf (s : String) : Nat := digitsVal ((s.data.drop 8).take 2)

/-- Modelled from the spec: the forward weekday table (dates on/after the
reference): remainder 0 ↦ Monday, 1 ↦ Tuesday, …, 6 ↦ Sunday. -/
def specForwardWeekday : Nat → Weekday
  | 0 => .monday
  | 1 => .tuesday
  | 2 => .wednesday
  | 3 => .thursday
  | 4 => .friday
  | 5 => .saturday
  | _ => .sunday

/-- Modelled from the spec: the backward weekday table (dates before the
reference): remainder 0 ↦ Monday, 6 ↦ Tuesday, 5 ↦ Wednesday, …,
1 ↦ Sunday. -/
def specBackwardWeekday : Nat → Weekday
  | 0 => .monday
  | 1 => .sunday
  | 2 => .saturday
  | 3 => .friday
  | 4 => .thursday
  | 5 => .wednesday
  | _ => .tuesday

/-- JS `<` on strings, restricted to lists of characters: lexicographic
comparison by code unit (for the ASCII strings this library produces, the
code unit is the code point, `Char.toNat`). -/
def charListLt : List Char → List Char → Bool
  | _, [] => false
  | [], _ :: _ => true
  | a :: as, b :: bs =>
    a.toNat < b.toNat || (a.toNat == b.toNat && charListLt as bs)

/-- JS `<` on strings. -/
def strLt (s t : String) : Bool := charListLt s.data t.data

/-! ## Basic lemmas -/

theorem isValid_iff {d : Datum} :
    isValid d = true ↔
      d.year ≤ 9999 ∧ 1 ≤ d.month ∧ d.month ≤ 12 ∧ 1 ≤ d.day ∧ d.day ≤ 31 ∧
        d.day ≤ getDaysInMonth d.year d.month := by
  simp [isValid, isYearOk, isMonthOk, isDayOk, and_assoc]

theorem mkDatum_eq_some {y m d : Nat} {e : Datum} :
    mkDatum y m d = some e ↔ isValid ⟨y, m, d⟩ = true ∧ e = ⟨y, m, d⟩ := by
  simp only [mkDatum, isValid, isYearOk, isMonthOk, isDayOk]
  split <;> rename_i h1
  · split <;> rename_i h2
    · simp only [reduceCtorEq, false_iff, not_and]
      intro hv
      simp only [Bool.and_eq_true, decide_eq_true_eq] at hv
      omega
    · simp only [Option.some.injEq]
      constructor
      · rintro rfl
        refine ⟨?_, rfl⟩
        simp only [Bool.and_eq_true, decide_eq_true_eq] at h1 ⊢
        omega
      · rintro ⟨-, rfl⟩
        rfl
  · simp only [reduceCtorEq, false_iff, not_and]
    intro hv
    simp only [Bool.and_eq_true, decide_eq_true_eq] at h1 hv
    omega

theorem mkDatum_self {d : Datum} (h : isValid d = true) :
    mkDatum d.year d.month d.day = some d :=
  mkDatum_eq_some.2 ⟨h, rfl⟩

theorem getDaysInMonth_bounds {y m : Nat} (h1 : 1 ≤ m) (h2 : m ≤ 12) :
    28 ≤ getDaysInMonth y m ∧ getDaysInMonth y m ≤ 31 := by
  interval_cases m <;> simp [getDaysInMonth] <;> split <;> omega

theorem isBefore_iff {a b : Datum} :
    isBefore a b = true ↔
      a.year < b.year ∨ (a.year = b.year ∧ a.month < b.month) ∨
        (a.year = b.year ∧ a.month = b.month ∧ a.day < b.day) := by
  simp [isBefore]
  tauto

theorem isAfter_iff {a b : Datum} :
    isAfter a b = true ↔
      b.year < a.year ∨ (a.year = b.year ∧ b.month < a.month) ∨
        (a.year = b.year ∧ a.month = b.month ∧ b.day < a.day) := by
  simp [isAfter]
  omega

theorem isEqual_iff {a b : Datum} : isEqual a b = true ↔ a = b := by
  cases a
  cases b
  simp [isEqual]
  omega

theorem daysBeforeMonth_succ (y : Nat) {m : Nat} (h : 1 ≤ m) :
    daysBeforeMonth y (m + 1) = daysBeforeMonth y m + getDaysInMonth y m := by
  cases m with
  | zero => omega
  | succ k => rfl

theorem daysBeforeMonth_mono (y : Nat) : Monotone (daysBeforeMonth y) := by
  apply monotone_nat_of_le_succ
  intro m
  cases m with
  | zero => simp [daysBeforeMonth]
  | succ k =>
    have h : daysBeforeMonth y (k + 1 + 1) =
        daysBeforeMonth y (k + 1) + getDaysInMonth y (k + 1) := rfl
    omega

theorem daysBeforeMonth_year_sum (y : Nat) :
    daysBeforeMonth y 13 = getDaysInYear y := by
  cases h : isLeapYear y <;>
    simp [daysBeforeMonth, getDaysInMonth, getDaysInYear, h]

theorem daysBeforeYear_succ (y : Nat) :
    daysBeforeYear (y + 1) = daysBeforeYear y + getDaysInYear y := rfl

theorem daysBeforeYear_mono : Monotone daysBeforeYear := by
  apply monotone_nat_of_le_succ
  intro y
  rw [daysBeforeYear_succ]
  omega

/-! ## Ordinal order lemmas -/

theorem toOrdinal_le_year_end {d : Datum} (h : isValid d = true) :
    toOrdinal d ≤ daysBeforeYear (d.year + 1) := by
  rcases isValid_iff.1 h with ⟨hy, hm1, hm2, hd1, hd31, hdm⟩
  have h1 : daysBeforeMonth d.year (d.month + 1) =
      daysBeforeMonth d.year d.month + getDaysInMonth d.year d.month :=
    daysBeforeMonth_succ _ hm1
  have h2 : daysBeforeMonth d.year (d.month + 1) ≤ daysBeforeMonth d.year 13 :=
    daysBeforeMonth_mono _ (by omega)
  have h3 := daysBeforeMonth_year_sum d.year
  have h4 := daysBeforeYear_succ d.year
  simp only [toOrdinal]
  omega

theorem toOrdinal_lt_of_isBefore {a b : Datum} (ha : isValid a = true)
    (hb : isValid b = true) (h : isBefore a b = true) :
    toOrdinal a < toOrdinal b := by
  rcases isBefore_iff.1 h with hy | ⟨hy, hm⟩ | ⟨hy, hm, hd⟩
  · have h1 := toOrdinal_le_year_end ha
    have h2 : daysBeforeYear (a.year + 1) ≤ daysBeforeYear b.year :=
      daysBeforeYear_mono (by omega)
    rcases isValid_iff.1 hb with ⟨-, -, -, hd1, -, -⟩
    simp only [toOrdinal] at h1 ⊢
    omega
  · rcases isValid_iff.1 ha with ⟨-, hm1, -, -, -, hdm⟩
    rcases isValid_iff.1 hb with ⟨-, -, -, hd1, -, -⟩
    have h1 : daysBeforeMonth a.year (a.month + 1) =
        daysBeforeMonth a.year a.month + getDaysInMonth a.year a.month :=
      daysBeforeMonth_succ _ hm1
    have h2 : daysBeforeMonth a.year (a.month + 1) ≤ daysBeforeMonth a.year b.month :=
      daysBeforeMonth_mono _ (by omega)
    simp only [toOrdinal, hy] at h1 h2 hdm ⊢
    omega
  · simp only [toOrdinal, hy, hm]
    omega

theorem datum_trichotomy (a b : Datum) :
    isBefore a b = true ∨ a = b ∨ isBefore b a = true := by
  rcases a with ⟨ay, am, ad⟩
  rcases b with ⟨by_, bm, bd⟩
  simp only [isBefore_iff, Datum.mk.injEq]
  omega

theorem isBefore_iff_toOrdinal {a b : Datum} (ha : isValid a = true)
    (hb : isValid b = true) :
    isBefore a b = true ↔ toOrdinal a < toOrdinal b := by
  constructor
  · exact toOrdinal_lt_of_isBefore ha hb
  · intro h
    rcases datum_trichotomy a b with h1 | rfl | h1
    · exact h1
    · omega
    · have := toOrdinal_lt_of_isBefore hb ha h1
      omega

theorem toOrdinal_inj {a b : Datum} (ha : isValid a = true)
    (hb : isValid b = true) (h : toOrdinal a = toOrdinal b) : a = b := by
  rcases datum_trichotomy a b with h1 | rfl | h1
  · have := toOrdinal_lt_of_isBefore ha hb h1
    omega
  · rfl
  · have := toOrdinal_lt_of_isBefore hb ha h1
    omega

theorem toOrdinal_pos {d : Datum} (h : isValid d = true) : 1 ≤ toOrdinal d := by
  rcases isValid_iff.1 h with ⟨-, -, -, hd1, -, -⟩
  simp only [toOrdinal]
  omega

theorem maxDatum_isValid : isValid ⟨9999, 12, 31⟩ = true := by decide

theorem toOrdinal_le_max {d : Datum} (h : isValid d = true) :
    toOrdinal d ≤ maxOrdinal := by
  rcases datum_trichotomy d ⟨9999, 12, 31⟩ with h1 | heq | h1
  · exact le_of_lt (toOrdinal_lt_of_isBefore h maxDatum_isValid h1)
  · rw [heq]
    exact le_of_eq rfl
  · exfalso
    rcases isValid_iff.1 h with ⟨hy, -, hm2, -, hd31, -⟩
    rcases isBefore_iff.1 h1 with hx | ⟨hx, hm⟩ | ⟨hx, hm, hd⟩ <;>
      simp_all <;> omega

/-! ## First-of-next-month step lemmas -/

theorem ord_next_month_dec {c : Datum} (h : isValid c = true) (h12 : c.month = 12) :
    toOrdinal ⟨c.year + 1, 1, 1⟩ = toOrdinal c + daysUntilFirstDayOfNextMonth c := by
  rcases isValid_iff.1 h with ⟨hy, hm1, hm2, hd1, hd31, hdm⟩
  have h1 := daysBeforeYear_succ c.year
  have h2 := daysBeforeMonth_year_sum c.year
  have h3 : daysBeforeMonth c.year 13 =
      daysBeforeMonth c.year 12 + getDaysInMonth c.year 12 := rfl
  have h4 : daysBeforeMonth (c.year + 1) 1 = 0 := rfl
  simp only [toOrdinal, daysUntilFirstDayOfNextMonth, h12] at hdm ⊢
  omega

theorem ord_next_month {c : Datum} (h : isValid c = true) (h12 : c.month ≠ 12) :
    toOrdinal ⟨c.year, c.month + 1, 1⟩ = toOrdinal c + daysUntilFirstDayOfNextMonth c := by
  rcases isValid_iff.1 h with ⟨hy, hm1, hm2, hd1, hd31, hdm⟩
  have h1 := daysBeforeMonth_succ c.year hm1
  simp only [toOrdinal, daysUntilFirstDayOfNextMonth]
  omega

theorem isValid_next_dec {c : Datum}
    (hy : c.year + 1 ≤ 9999) : isValid ⟨c.year + 1, 1, 1⟩ = true := by
  have hb := getDaysInMonth_bounds (y := c.year + 1) (m := 1) (by omega) (by omega)
  rw [isValid_iff]
  dsimp only
  omega

theorem isValid_next_month {c : Datum} (h : isValid c = true)
    (h12 : c.month ≠ 12) : isValid ⟨c.year, c.month + 1, 1⟩ = true := by
  rcases isValid_iff.1 h with ⟨hy, hm1, hm2, -, -, -⟩
  have hb := getDaysInMonth_bounds (y := c.year) (m := c.month + 1) (by omega) (by omega)
  rw [isValid_iff]
  dsimp only
  omega

theorem stride_pos (c : Datum) : 1 ≤ daysUntilFirstDayOfNextMonth c := by
  simp only [daysUntilFirstDayOfNextMonth]
  omega

/-! ## addDays -/

theorem addDaysLoop_spec :
    ∀ fuel n current, n < fuel → isValid current = true →
      (toOrdinal current + n ≤ maxOrdinal →
        ∃ e, addDaysLoop fuel current n = some e ∧ isValid e = true ∧
          toOrdinal e = toOrdinal current + n) ∧
      (maxOrdinal < toOrdinal current + n → addDaysLoop fuel current n = none) := by
  intro fuel
  induction fuel with
  | zero =>
    intro n current h
    omega
  | succ fuel ih =>
    intro n current hn hv
    rcases isValid_iff.1 hv with ⟨hy, hm1, hm2, hd1, hd31, hdm⟩
    have hgb := getDaysInMonth_bounds (y := current.year) hm1 hm2
    have hstride : daysUntilFirstDayOfNextMonth current =
        getDaysInMonth current.year current.month - current.day + 1 := rfl
    by_cases hlt : n < daysUntilFirstDayOfNextMonth current
    · -- terminal iteration: return current.day + n within this month
      have hvr : isValid ⟨current.year, current.month, current.day + n⟩ = true := by
        rw [isValid_iff]
        dsimp only
        omega
      have hres : addDaysLoop (fuel + 1) current n =
          some ⟨current.year, current.month, current.day + n⟩ := by
        simp only [addDaysLoop, if_pos hlt]
        exact mkDatum_eq_some.2 ⟨hvr, rfl⟩
      have hord : toOrdinal ⟨current.year, current.month, current.day + n⟩ =
          toOrdinal current + n := by
        simp only [toOrdinal]
        omega
      refine ⟨fun _ => ⟨_, hres, hvr, hord⟩, fun hmax => ?_⟩
      have := toOrdinal_le_max hvr
      omega
    · -- the loop advances to the first day of the next month
      by_cases h12 : current.month = 12
      · by_cases hy9 : current.year = 9999
        · -- year overflow: the constructor for year 10000 throws
          have hmk : mkDatum (current.year + 1) 1 1 = none := by
            rw [hy9]
            decide
          have hres : addDaysLoop (fuel + 1) current n = none := by
            simp only [addDaysLoop, if_neg hlt, h12]
            simp [hmk]
          refine ⟨fun hle => ?_, fun _ => hres⟩
          exfalso
          have hmax : maxOrdinal = daysBeforeYear 9999 + daysBeforeMonth 9999 12 + 31 := by
            simp only [maxOrdinal, toOrdinal]
          have hg : getDaysInMonth 9999 12 = 31 := by decide
          simp only [toOrdinal, hy9, h12] at hle hdm
          rw [hg] at hdm
          simp only [hstride, hy9, h12, hg] at hlt
          omega
        · -- roll over December → January of the next year
          have hnext : isValid ⟨current.year + 1, 1, 1⟩ = true :=
            isValid_next_dec (by omega)
          have hmk : mkDatum (current.year + 1) 1 1 =
              some ⟨current.year + 1, 1, 1⟩ := mkDatum_eq_some.2 ⟨hnext, rfl⟩
          have hres : ∀ r, addDaysLoop (fuel + 1) current n = r ↔
              addDaysLoop fuel ⟨current.year + 1, 1, 1⟩
                (n - daysUntilFirstDayOfNextMonth current) = r := by
            intro r
            simp only [addDaysLoop, if_neg hlt, h12]
            simp [hmk]
          have hord : toOrdinal ⟨current.year + 1, 1, 1⟩ =
              toOrdinal current + daysUntilFirstDayOfNextMonth current :=
            ord_next_month_dec hv h12
          have hs1 : 1 ≤ daysUntilFirstDayOfNextMonth current := stride_pos current
          have hih := ih (n - daysUntilFirstDayOfNextMonth current)
            ⟨current.year + 1, 1, 1⟩ (by omega) hnext
          constructor
          · intro hle
            obtain ⟨e, he, hev, heo⟩ := hih.1 (by omega)
            exact ⟨e, (hres _).2 he, hev, by omega⟩
          · intro hmax
            exact (hres _).2 (hih.2 (by omega))
      · -- advance to the next month within the same year
        have hnext : isValid ⟨current.year, current.month + 1, 1⟩ = true :=
          isValid_next_month hv h12
        have hmk : mkDatum current.year (current.month + 1) 1 =
            some ⟨current.year, current.month + 1, 1⟩ := mkDatum_eq_some.2 ⟨hnext, rfl⟩
        have hres : ∀ r, addDaysLoop (fuel + 1) current n = r ↔
            addDaysLoop fuel ⟨current.year, current.month + 1, 1⟩
              (n - daysUntilFirstDayOfNextMonth current) = r := by
          intro r
          simp only [addDaysLoop, if_neg hlt, h12]
          simp [hmk, h12]
        have hord : toOrdinal ⟨current.year, current.month + 1, 1⟩ =
            toOrdinal current + daysUntilFirstDayOfNextMonth current :=
          ord_next_month hv h12
        have hs1 : 1 ≤ daysUntilFirstDayOfNextMonth current := stride_pos current
        have hih := ih (n - daysUntilFirstDayOfNextMonth current)
          ⟨current.year, current.month + 1, 1⟩ (by omega) hnext
        constructor
        · intro hle
          obtain ⟨e, he, hev, heo⟩ := hih.1 (by omega)
          exact ⟨e, (hres _).2 he, hev, by omega⟩
        · intro hmax
          exact (hres _).2 (hih.2 (by omega))

theorem addDays_spec {d : Datum} (hv : isValid d = true) (n : Nat) :
    (toOrdinal d + n ≤ maxOrdinal →
      ∃ e, addDays d n = some e ∧ isValid e = true ∧ toOrdinal e = toOrdinal d + n) ∧
    (maxOrdinal < toOrdinal d + n → addDays d n = none) :=
  addDaysLoop_spec (n + 1) n d (by omega) hv

theorem addDays_some {d e : Datum} {n : Nat} (hv : isValid d = true)
    (h : addDays d n = some e) :
    isValid e = true ∧ toOrdinal e = toOrdinal d + n := by
  rcases le_or_lt (toOrdinal d + n) maxOrdinal with hle | hgt
  · obtain ⟨e2, he2, hev, heo⟩ := (addDays_spec hv n).1 hle
    rw [h] at he2
    cases he2
    exact ⟨hev, heo⟩
  · rw [(addDays_spec hv n).2 hgt] at h
    cases h

/-! ## subtractDays -/

theorem ord_prev_month_jan {c : Datum} (h : isValid c = true) (h1m : c.month = 1)
    (hy : 1 ≤ c.year) :
    toOrdinal ⟨c.year - 1, 12, getDaysInMonth (c.year - 1) 12⟩ =
      toOrdinal c - c.day := by
  have h13 : daysBeforeMonth (c.year - 1) 13 =
      daysBeforeMonth (c.year - 1) 12 + getDaysInMonth (c.year - 1) 12 := rfl
  have hsum := daysBeforeMonth_year_sum (c.year - 1)
  have hsucc := daysBeforeYear_succ (c.year - 1)
  rw [show c.year - 1 + 1 = c.year from by omega] at hsucc
  have hm0 : daysBeforeMonth c.year 1 = 0 := rfl
  simp only [toOrdinal, h1m]
  omega

theorem ord_prev_month {c : Datum} (h : isValid c = true) (h1m : c.month ≠ 1)
    (hm1 : 1 ≤ c.month) :
    toOrdinal ⟨c.year, c.month - 1, getDaysInMonth c.year (c.month - 1)⟩ =
      toOrdinal c - c.day := by
  have hstep := daysBeforeMonth_succ c.year (m := c.month - 1) (by omega)
  rw [show c.month - 1 + 1 = c.month from by omega] at hstep
  simp only [toOrdinal]
  omega

theorem sub_step_lt {A B n day : Nat} (hA : A = B - day) (h1 : n < B)
    (h2 : day ≤ n) (h3 : day ≤ B) : n - day < A := by
  omega

theorem sub_step_eq {E A B n day : Nat} (hE : E = A - (n - day))
    (hA : A = B - day) (h2 : day ≤ n) : E = B - n := by
  omega

theorem sub_step_le {A B n day : Nat} (hA : A = B - day) (h1 : B ≤ n) :
    A ≤ n - day := by
  omega

theorem subDaysLoop_spec :
    ∀ fuel n current, n < fuel → isValid current = true →
      (n < toOrdinal current →
        ∃ e, subDaysLoop fuel current n = some e ∧ isValid e = true ∧
          toOrdinal e = toOrdinal current - n) ∧
      (toOrdinal current ≤ n → subDaysLoop fuel current n = none) := by
  intro fuel
  induction fuel with
  | zero =>
    intro n current h
    omega
  | succ fuel ih =>
    intro n current hn hv
    rcases isValid_iff.1 hv with ⟨hy, hm1, hm2, hd1, hd31, hdm⟩
    have hordc : toOrdinal current =
        daysBeforeYear current.year + daysBeforeMonth current.year current.month +
          current.day := rfl
    by_cases hlt : n < current.day
    · -- terminal iteration: return current.day - n within this month
      have hvr : isValid ⟨current.year, current.month, current.day - n⟩ = true := by
        rw [isValid_iff]
        dsimp only
        omega
      have hres : subDaysLoop (fuel + 1) current n =
          some ⟨current.year, current.month, current.day - n⟩ := by
        simp only [subDaysLoop, if_pos hlt]
        exact mkDatum_eq_some.2 ⟨hvr, rfl⟩
      have hord : toOrdinal ⟨current.year, current.month, current.day - n⟩ =
          toOrdinal current - n := by
        simp only [toOrdinal]
        omega
      refine ⟨fun _ => ⟨_, hres, hvr, hord⟩, fun hle => ?_⟩
      omega
    · by_cases h1m : current.month = 1
      · by_cases hy0 : current.year = 0
        · -- stepping back from 0000-01: the constructor for year -1 throws
          have hres : subDaysLoop (fuel + 1) current n = none := by
            simp only [subDaysLoop, if_neg hlt, h1m, hy0]
            simp
          refine ⟨fun hlt2 => ?_, fun _ => hres⟩
          exfalso
          have hm0 : daysBeforeMonth 0 1 = 0 := rfl
          have hy0d : daysBeforeYear 0 = 0 := rfl
          rw [hordc, hy0, h1m, hm0, hy0d] at hlt2
          omega
        · -- roll back January → December of the previous year
          have hgb2 := getDaysInMonth_bounds (y := current.year - 1) (m := 12)
            (by omega) (by omega)
          have hnext : isValid ⟨current.year - 1, 12,
              getDaysInMonth (current.year - 1) 12⟩ = true := by
            rw [isValid_iff]
            dsimp only
            omega
          have hmk : mkDatum (current.year - 1) 12 (getDaysInMonth (current.year - 1) 12) =
              some ⟨current.year - 1, 12, getDaysInMonth (current.year - 1) 12⟩ :=
            mkDatum_eq_some.2 ⟨hnext, rfl⟩
          have hres : ∀ r, subDaysLoop (fuel + 1) current n = r ↔
              subDaysLoop fuel ⟨current.year - 1, 12, getDaysInMonth (current.year - 1) 12⟩
                (n - current.day) = r := by
            intro r
            simp only [subDaysLoop, if_neg hlt, h1m, hy0]
            simp [hmk, hy0]
          have hord : toOrdinal ⟨current.year - 1, 12, getDaysInMonth (current.year - 1) 12⟩ =
              toOrdinal current - current.day :=
            ord_prev_month_jan hv h1m (by omega)
          have hdo : current.day ≤ toOrdinal current := by
            rw [hordc]
            omega
          have hih := ih (n - current.day)
            ⟨current.year - 1, 12, getDaysInMonth (current.year - 1) 12⟩ (by omega) hnext
          have hday : current.day ≤ n := Nat.le_of_not_lt hlt
          constructor
          · intro hlt2
            obtain ⟨e, he, hev, heo⟩ := hih.1 (sub_step_lt hord hlt2 hday hdo)
            exact ⟨e, (hres _).2 he, hev, sub_step_eq heo hord hday⟩
          · intro hle
            exact (hres _).2 (hih.2 (sub_step_le hord hle))
      · -- roll back to the last day of the previous month, same year
        have hgb2 := getDaysInMonth_bounds (y := current.year) (m := current.month - 1)
          (by omega) (by omega)
        have hnext : isValid ⟨current.year, current.month - 1,
            getDaysInMonth current.year (current.month - 1)⟩ = true := by
          rw [isValid_iff]
          dsimp only
          omega
        have hmk : mkDatum current.year (current.month - 1)
            (getDaysInMonth current.year (current.month - 1)) =
            some ⟨current.year, current.month - 1,
              getDaysInMonth current.year (current.month - 1)⟩ :=
          mkDatum_eq_some.2 ⟨hnext, rfl⟩
        have hres : ∀ r, subDaysLoop (fuel + 1) current n = r ↔
            subDaysLoop fuel ⟨current.year, current.month - 1,
              getDaysInMonth current.year (current.month - 1)⟩ (n - current.day) = r := by
          intro r
          simp only [subDaysLoop, if_neg hlt, h1m]
          simp [hmk, h1m]
        have hord : toOrdinal ⟨current.year, current.month - 1,
            getDaysInMonth current.year (current.month - 1)⟩ =
            toOrdinal current - current.day :=
          ord_prev_month hv h1m hm1
        have hdo : current.day ≤ toOrdinal current := by
          rw [hordc]
          omega
        have hih := ih (n - current.day)
          ⟨current.year, current.month - 1,
            getDaysInMonth current.year (current.month - 1)⟩ (by omega) hnext
        have hday : current.day ≤ n := Nat.le_of_not_lt hlt
        constructor
        · intro hlt2
          obtain ⟨e, he, hev, heo⟩ := hih.1 (sub_step_lt hord hlt2 hday hdo)
          exact ⟨e, (hres _).2 he, hev, sub_step_eq heo hord hday⟩
        · intro hle
          exact (hres _).2 (hih.2 (sub_step_le hord hle))

theorem subtractDays_spec {d : Datum} (hv : isValid d = true) (n : Nat) :
    (n < toOrdinal d →
      ∃ e, subtractDays d n = some e ∧ isValid e = true ∧
        toOrdinal e = toOrdinal d - n) ∧
    (toOrdinal d ≤ n → subtractDays d n = none) :=
  subDaysLoop_spec (n + 1) n d (by omega) hv

/-! ## deltaDays -/

theorem dist_same_prefix (p d1 d2 : Nat) :
    Nat.dist (p + d1) (p + d2) = Nat.dist d1 d2 := by
  simp [Nat.dist]
  omega

theorem dist_step {a b s u : Nat} (hb : b = a + s) (hle : b ≤ u) :
    Nat.dist a u = s + Nat.dist b u := by
  simp [Nat.dist]
  omega

theorem toOrdinal_le_of_lex_first {a b : Datum} (ha : isValid a = true)
    (hb : isValid b = true)
    (h : 12 * a.year + a.month ≤ 12 * b.year + b.month) (hd : a.day = 1) :
    toOrdinal a ≤ toOrdinal b := by
  rcases isValid_iff.1 ha with ⟨-, ham1, ham2, -, -, -⟩
  rcases isValid_iff.1 hb with ⟨-, hbm1, hbm2, hbd1, -, -⟩
  rcases Nat.lt_or_ge (12 * a.year + a.month) (12 * b.year + b.month) with hstrict | hge
  · have hbefore : isBefore a b = true := by
      rw [isBefore_iff]
      omega
    exact le_of_lt (toOrdinal_lt_of_isBefore ha hb hbefore)
  · have hy : a.year = b.year := by omega
    have hm : a.month = b.month := by omega
    simp only [toOrdinal, hy, hm, hd]
    omega

theorem deltaLoop_spec :
    ∀ fuel current untilD acc, isValid current = true → isValid untilD = true →
      12 * current.year + current.month ≤ 12 * untilD.year + untilD.month →
      12 * untilD.year + untilD.month - (12 * current.year + current.month) < fuel →
      deltaLoop fuel current untilD acc =
        some (acc + Nat.dist (toOrdinal current) (toOrdinal untilD)) := by
  intro fuel
  induction fuel with
  | zero =>
    intro current untilD acc _ _ hlex hfuel
    omega
  | succ fuel ih =>
    intro current untilD acc hvc hvu hlex hfuel
    rcases isValid_iff.1 hvc with ⟨hcy, hcm1, hcm2, hcd1, hcd31, hcdm⟩
    rcases isValid_iff.1 hvu with ⟨huy, hum1, hum2, hud1, hud31, hudm⟩
    by_cases heq : current.year = untilD.year ∧ current.month = untilD.month
    · have hcond : (current.year == untilD.year && current.month == untilD.month) = true := by
        simp only [Bool.and_eq_true, beq_iff_eq]
        exact heq
      have hdist : Nat.dist (toOrdinal current) (toOrdinal untilD) =
          Nat.dist current.day untilD.day := by
        simp only [toOrdinal, heq.1, heq.2]
        exact dist_same_prefix _ _ _
      simp only [deltaLoop, if_pos hcond, hdist]
    · have hcond : ¬ ((current.year == untilD.year && current.month == untilD.month) = true) := by
        simp only [Bool.and_eq_true, beq_iff_eq]
        exact heq
      have hstrict : 12 * current.year + current.month <
          12 * untilD.year + untilD.month := by
        rcases Nat.lt_or_ge (12 * current.year + current.month)
          (12 * untilD.year + untilD.month) with h | h
        · exact h
        · exfalso
          exact heq ⟨by omega, by omega⟩
      by_cases h12 : current.month = 12
      · -- December: roll to January of the next year
        have hylt : current.year < untilD.year := by omega
        have hnext : isValid ⟨current.year + 1, 1, 1⟩ = true :=
          isValid_next_dec (by omega)
        have hmk : mkDatum (current.year + 1) 1 1 =
            some ⟨current.year + 1, 1, 1⟩ := mkDatum_eq_some.2 ⟨hnext, rfl⟩
        have hord : toOrdinal ⟨current.year + 1, 1, 1⟩ =
            toOrdinal current + daysUntilFirstDayOfNextMonth current :=
          ord_next_month_dec hvc h12
        have hle2 : toOrdinal ⟨current.year + 1, 1, 1⟩ ≤ toOrdinal untilD :=
          toOrdinal_le_of_lex_first hnext hvu (by dsimp only; omega) rfl
        have hrec := ih ⟨current.year + 1, 1, 1⟩ untilD
          (acc + daysUntilFirstDayOfNextMonth current) hnext hvu
          (by dsimp only; omega) (by dsimp only; omega)
        have hd : Nat.dist (toOrdinal current) (toOrdinal untilD) =
            daysUntilFirstDayOfNextMonth current +
              Nat.dist (toOrdinal ⟨current.year + 1, 1, 1⟩) (toOrdinal untilD) :=
          dist_step hord hle2
        simp only [deltaLoop]
        rw [if_neg hcond, if_pos (show (current.month == 12) = true by simp [h12])]
        simp only [hmk]
        rw [hrec, hd, Nat.add_assoc]
      · -- advance to the next month, same year
        have hnext : isValid ⟨current.year, current.month + 1, 1⟩ = true :=
          isValid_next_month hvc h12
        have hmk : mkDatum current.year (current.month + 1) 1 =
            some ⟨current.year, current.month + 1, 1⟩ := mkDatum_eq_some.2 ⟨hnext, rfl⟩
        have hord : toOrdinal ⟨current.year, current.month + 1, 1⟩ =
            toOrdinal current + daysUntilFirstDayOfNextMonth current :=
          ord_next_month hvc h12
        have hle2 : toOrdinal ⟨current.year, current.month + 1, 1⟩ ≤ toOrdinal untilD :=
          toOrdinal_le_of_lex_first hnext hvu (by dsimp only; omega) rfl
        have hrec := ih ⟨current.year, current.month + 1, 1⟩ untilD
          (acc + daysUntilFirstDayOfNextMonth current) hnext hvu
          (by dsimp only; omega) (by dsimp only; omega)
        have hd : Nat.dist (toOrdinal current) (toOrdinal untilD) =
            daysUntilFirstDayOfNextMonth current +
              Nat.dist (toOrdinal ⟨current.year, current.month + 1, 1⟩) (toOrdinal untilD) :=
          dist_step hord hle2
        simp only [deltaLoop]
        rw [if_neg hcond, if_neg (show ¬ (current.month == 12) = true by simp [h12])]
        simp only [hmk]
        rw [hrec, hd, Nat.add_assoc]

theorem deltaDays_eq_dist {a b : Datum} (ha : isValid a = true)
    (hb : isValid b = true) :
    deltaDays a b = some (Nat.dist (toOrdinal a) (toOrdinal b)) := by
  rcases isValid_iff.1 ha with ⟨hay, ham1, ham2, had1, -, -⟩
  rcases isValid_iff.1 hb with ⟨hby, hbm1, hbm2, hbd1, -, -⟩
  by_cases heqd : a = b
  · subst heqd
    have h1 : isEqual a a = true := isEqual_iff.2 rfl
    simp [deltaDays, h1, Nat.dist_self]
  · have hne0 : isEqual a b = false := by
      rw [← Bool.not_eq_true, isEqual_iff]
      exact heqd
    rcases datum_trichotomy a b with hbef | habeq | hbef
    · -- a before b: current = a, untilD = b
      have haft : isAfter a b = false := by
        rw [← Bool.not_eq_true, isAfter_iff]
        rcases isBefore_iff.1 hbef with h | ⟨h1, h2⟩ | ⟨h1, h2, h3⟩ <;> omega
      have hlex : 12 * a.year + a.month ≤ 12 * b.year + b.month := by
        rcases isBefore_iff.1 hbef with h | ⟨h1, h2⟩ | ⟨h1, h2, h3⟩ <;> omega
      have hloop := deltaLoop_spec 130000 a b 0 ha hb hlex (by omega)
      have hne : isEqual b a = false := by
        rw [← Bool.not_eq_true, isEqual_iff]
        intro h
        exact heqd h.symm
      simp [deltaDays, hne0, haft, hbef, hne, hloop]
    · exact absurd habeq heqd
    · -- b before a: current = b, untilD = a
      have haft : isAfter a b = true := by
        rw [isAfter_iff]
        rcases isBefore_iff.1 hbef with h | ⟨h1, h2⟩ | ⟨h1, h2, h3⟩ <;> omega
      have hbefab : isBefore a b = false := by
        rw [← Bool.not_eq_true, isBefore_iff]
        rcases isBefore_iff.1 hbef with h | ⟨h1, h2⟩ | ⟨h1, h2, h3⟩ <;> omega
      have hlex : 12 * b.year + b.month ≤ 12 * a.year + a.month := by
        rcases isBefore_iff.1 hbef with h | ⟨h1, h2⟩ | ⟨h1, h2, h3⟩ <;> omega
      have hloop := deltaLoop_spec 130000 b a 0 hb ha hlex (by omega)
      simp [deltaDays, hne0, haft, hbefab, hloop, Nat.dist_comm]

/-! ## Validity of every produced Datum -/

theorem mkDatum_valid {y m d : Nat} {e : Datum} (h : mkDatum y m d = some e) :
    isValid e = true := by
  obtain ⟨hv, rfl⟩ := mkDatum_eq_some.1 h
  exact hv

theorem addDaysLoop_valid :
    ∀ fuel current n e, addDaysLoop fuel current n = some e → isValid e = true := by
  intro fuel
  induction fuel with
  | zero =>
    intro current n e h
    cases h
  | succ fuel ih =>
    intro current n e h
    simp only [addDaysLoop] at h
    split at h
    · exact mkDatum_valid h
    · split at h
      · cases hmk : mkDatum (current.year + 1) 1 1 with
        | none => rw [hmk] at h; cases h
        | some c =>
          rw [hmk] at h
          exact ih c _ e h
      · cases hmk : mkDatum current.year (current.month + 1) 1 with
        | none => rw [hmk] at h; cases h
        | some c =>
          rw [hmk] at h
          exact ih c _ e h

theorem subDaysLoop_valid :
    ∀ fuel current n e, subDaysLoop fuel current n = some e → isValid e = true := by
  intro fuel
  induction fuel with
  | zero =>
    intro current n e h
    cases h
  | succ fuel ih =>
    intro current n e h
    simp only [subDaysLoop] at h
    split at h
    · exact mkDatum_valid h
    · split at h
      · split at h
        · cases h
        · cases hmk : mkDatum (current.year - 1) 12 (getDaysInMonth (current.year - 1) 12) with
          | none => rw [hmk] at h; cases h
          | some c =>
            rw [hmk] at h
            exact ih c _ e h
      · cases hmk : mkDatum current.year (current.month - 1)
            (getDaysInMonth current.year (current.month - 1)) with
        | none => rw [hmk] at h; cases h
        | some c =>
          rw [hmk] at h
          exact ih c _ e h

theorem fromString_valid : ∀ s e, fromString s = some e → isValid e = true := by
  intro s e h
  unfold fromString at h
  split at h
  · split at h
    · exact mkDatum_valid h
    · cases h
  · cases h

/-! ## min/max fold lemmas -/

theorem isBefore_irrefl (a : Datum) : isBefore a a = false := by
  rw [← Bool.not_eq_true, isBefore_iff]
  omega

theorem isBefore_trans {a b c : Datum} (h1 : isBefore a b = true)
    (h2 : isBefore b c = true) : isBefore a c = true := by
  rw [isBefore_iff] at h1 h2 ⊢
  omega

theorem isBefore_total {a b : Datum} (h1 : isBefore a b = false)
    (h2 : isBefore b a = false) : a = b := by
  rw [← Bool.not_eq_true, isBefore_iff] at h1 h2
  rcases a with ⟨ay, am, ad⟩
  rcases b with ⟨by_, bm, bd⟩
  simp only [Datum.mk.injEq]
  simp only [not_or, not_and, not_lt] at h1 h2
  omega

theorem isAfter_irrefl (a : Datum) : isAfter a a = false := by
  rw [← Bool.not_eq_true, isAfter_iff]
  omega

theorem isAfter_trans {a b c : Datum} (h1 : isAfter a b = true)
    (h2 : isAfter b c = true) : isAfter a c = true := by
  rw [isAfter_iff] at h1 h2 ⊢
  omega

theorem isAfter_total {a b : Datum} (h1 : isAfter a b = false)
    (h2 : isAfter b a = false) : a = b := by
  rw [← Bool.not_eq_true, isAfter_iff] at h1 h2
  rcases a with ⟨ay, am, ad⟩
  rcases b with ⟨by_, bm, bd⟩
  simp only [Datum.mk.injEq]
  simp only [not_or, not_and, not_lt] at h1 h2
  omega

/-- Invariant of the scanning loop shared by `min` and `max`: once the
accumulator holds a candidate, the fold returns an element of the
candidate-plus-rest set that no element of that set strictly precedes
(with respect to the comparison used by the loop). -/
theorem foldPick_spec (lt : Datum → Datum → Bool)
    (hirr : ∀ a, lt a a = false)
    (htrans : ∀ a b c, lt a b = true → lt b c = true → lt a c = true)
    (htot : ∀ a b, lt a b = false → lt b a = false → a = b) :
    ∀ (l : List Datum) (m : Datum),
      ∃ r, l.foldl (fun acc x => match acc with
            | none => some x
            | some mm => if lt x mm then some x else some mm) (some m) = some r ∧
        (r = m ∨ r ∈ l) ∧ lt m r = false ∧ ∀ x ∈ l, lt x r = false := by
  intro l
  induction l with
  | nil =>
    intro m
    exact ⟨m, rfl, Or.inl rfl, hirr m, by simp⟩
  | cons x xs ih =>
    intro m
    rw [List.foldl_cons]
    by_cases hx : lt x m = true
    · obtain ⟨r, hr, hmem, hxr, hall⟩ := ih x
      refine ⟨r, by simp only [hx, if_true]; exact hr, ?_, ?_, ?_⟩
      · rcases hmem with rfl | hm
        · exact Or.inr (List.mem_cons_self _ _)
        · exact Or.inr (List.mem_cons_of_mem _ hm)
      · cases hc : lt m r with
        | false => rfl
        | true =>
          have := htrans x m r hx hc
          rw [this] at hxr
          cases hxr
      · intro y hy
        rcases List.mem_cons.1 hy with rfl | hy2
        · exact hxr
        · exact hall y hy2
    · have hx2 : lt x m = false := by
        cases hcc : lt x m with
        | false => rfl
        | true => exact absurd hcc hx
      obtain ⟨r, hr, hmem, hmr, hall⟩ := ih m
      refine ⟨r, by simp only [hx2, Bool.false_eq_true, if_false]; exact hr, ?_, hmr, ?_⟩
      · rcases hmem with rfl | hm
        · exact Or.inl rfl
        · exact Or.inr (List.mem_cons_of_mem _ hm)
      · intro y hy
        rcases List.mem_cons.1 hy with rfl | hy2
        · cases hc : lt y r with
          | false => rfl
          | true =>
            exfalso
            cases hrm : lt r m with
            | true =>
              have := htrans y r m hc hrm
              rw [this] at hx2
              cases hx2
            | false =>
              have heq := htot m r hmr hrm
              subst heq
              rw [hc] at hx2
              cases hx2
        · exact hall y hy2

theorem minDatum_spec (l : List Datum) :
    (minDatum l = none ↔ l = []) ∧
    ∀ m, minDatum l = some m → m ∈ l ∧ ∀ x ∈ l, isBefore x m = false := by
  cases l with
  | nil =>
    refine ⟨by simp [minDatum], ?_⟩
    intro m h
    cases h
  | cons x xs =>
    obtain ⟨r, hr, hmem, hxr, hall⟩ := foldPick_spec isBefore isBefore_irrefl
      (fun a b c h1 h2 => isBefore_trans h1 h2)
      (fun a b h1 h2 => isBefore_total h1 h2) xs x
    have hfold : minDatum (x :: xs) = some r := by
      rw [minDatum, List.foldl_cons]
      exact hr
    constructor
    · constructor
      · intro h
        rw [hfold] at h
        cases h
      · intro h
        cases h
    · intro m hm
      rw [hfold] at hm
      cases hm
      constructor
      · rcases hmem with rfl | hmm
        · exact List.mem_cons_self _ _
        · exact List.mem_cons_of_mem _ hmm
      · intro y hy
        rcases List.mem_cons.1 hy with rfl | hy2
        · exact hxr
        · exact hall y hy2

theorem maxDatum_spec (l : List Datum) :
    (maxDatum l = none ↔ l = []) ∧
    ∀ m, maxDatum l = some m → m ∈ l ∧ ∀ x ∈ l, isAfter x m = false := by
  cases l with
  | nil =>
    refine ⟨by simp [maxDatum], ?_⟩
    intro m h
    cases h
  | cons x xs =>
    obtain ⟨r, hr, hmem, hxr, hall⟩ := foldPick_spec isAfter isAfter_irrefl
      (fun a b c h1 h2 => isAfter_trans h1 h2)
      (fun a b h1 h2 => isAfter_total h1 h2) xs x
    have hfold : maxDatum (x :: xs) = some r := by
      rw [maxDatum, List.foldl_cons]
      exact hr
    constructor
    · constructor
      · intro h
        rw [hfold] at h
        cases h
      · intro h
        cases h
    · intro m hm
      rw [hfold] at hm
      cases hm
      constructor
      · rcases hmem with rfl | hmm
        · exact List.mem_cons_self _ _
        · exact List.mem_cons_of_mem _ hmm
      · intro y hy
        rcases List.mem_cons.1 hy with rfl | hy2
        · exact hxr
        · exact hall y hy2

/-! ## Decimal string lemmas -/

theorem digitsVal_from (cs : List Char) : ∀ acc : Nat,
    cs.foldl (fun acc c => acc * 10 + (c.toNat - 48)) acc =
      acc * 10 ^ cs.length + digitsVal cs := by
  induction cs with
  | nil =>
    intro acc
    simp [digitsVal]
  | cons c cs ih =>
    intro acc
    simp only [List.foldl_cons, List.length_cons, digitsVal] at ih ⊢
    rw [ih (acc * 10 + (c.toNat - 48)), ih (0 * 10 + (c.toNat - 48))]
    ring

theorem digitsVal_cons (c : Char) (cs : List Char) :
    digitsVal (c :: cs) = (c.toNat - 48) * 10 ^ cs.length + digitsVal cs := by
  simp only [digitsVal, List.foldl_cons]
  rw [digitsVal_from]
  ring_nf
  simp [digitsVal]

theorem digitsVal_append (xs ys : List Char) :
    digitsVal (xs ++ ys) = digitsVal xs * 10 ^ ys.length + digitsVal ys := by
  simp only [digitsVal, List.foldl_append]
  exact digitsVal_from ys _

theorem digitsVal_lt (cs : List Char) (h : ∀ c ∈ cs, isDigitChar c = true) :
    digitsVal cs < 10 ^ cs.length := by
  induction cs with
  | nil => simp [digitsVal]
  | cons c cs ih =>
    have hc := h c (List.mem_cons_self _ _)
    have hd9 : c.toNat - 48 ≤ 9 := by
      simp only [isDigitChar, Bool.and_eq_true, decide_eq_true_eq] at hc
      omega
    have hV := ih (fun x hx => h x (List.mem_cons_of_mem _ hx))
    rw [digitsVal_cons, List.length_cons]
    calc (c.toNat - 48) * 10 ^ cs.length + digitsVal cs
        < (c.toNat - 48) * 10 ^ cs.length + 10 ^ cs.length := by omega
      _ = ((c.toNat - 48) + 1) * 10 ^ cs.length := by ring
      _ ≤ 10 * 10 ^ cs.length := Nat.mul_le_mul_right _ (by omega)
      _ = 10 ^ (cs.length + 1) := by rw [pow_succ]; ring

theorem base_inj {B a b x y : Nat} (hx : x < B) (hy : y < B)
    (h : a * B + x = b * B + y) : a = b ∧ x = y := by
  have hB : 0 < B := by omega
  rw [Nat.mul_comm a B, Nat.mul_comm b B] at h
  have h1 : (B * a + x) / B = a := by
    rw [Nat.mul_add_div hB, Nat.div_eq_of_lt hx]
    omega
  have h2 : (B * b + y) / B = b := by
    rw [Nat.mul_add_div hB, Nat.div_eq_of_lt hy]
    omega
  have hab : a = b := by
    rw [← h1, ← h2, h]
  subst hab
  exact ⟨rfl, by omega⟩

theorem base_lt_iff {B a b x y : Nat} (hx : x < B) (hy : y < B) :
    a * B + x < b * B + y ↔ a < b ∨ (a = b ∧ x < y) := by
  constructor
  · intro h
    rcases Nat.lt_trichotomy a b with hab | hab | hab
    · exact Or.inl hab
    · subst hab
      exact Or.inr ⟨rfl, by omega⟩
    · exfalso
      have : b * B + y < a * B + x :=
        calc b * B + y < b * B + B := by omega
          _ = (b + 1) * B := by ring
          _ ≤ a * B := Nat.mul_le_mul_right _ (by omega)
          _ ≤ a * B + x := by omega
      omega
  · intro h
    rcases h with hab | ⟨rfl, hxy⟩
    · calc a * B + x < a * B + B := by omega
        _ = (a + 1) * B := by ring
        _ ≤ b * B := Nat.mul_le_mul_right _ (by omega)
        _ ≤ b * B + y := by omega
    · omega

theorem char_eq_of_toNat_eq {a b : Char} (h : a.toNat = b.toNat) : a = b := by
  have := congrArg Char.ofNat h
  simpa using this

theorem digit_toNat_bounds {c : Char} (h : isDigitChar c = true) :
    48 ≤ c.toNat ∧ c.toNat ≤ 57 := by
  simp only [isDigitChar, Bool.and_eq_true, decide_eq_true_eq] at h
  exact h

theorem digitsVal_inj : ∀ ds es : List Char, ds.length = es.length →
    (∀ c ∈ ds, isDigitChar c = true) → (∀ c ∈ es, isDigitChar c = true) →
    digitsVal ds = digitsVal es → ds = es := by
  intro ds
  induction ds with
  | nil =>
    intro es hlen _ _ _
    cases es with
    | nil => rfl
    | cons e es => simp at hlen
  | cons d ds ih =>
    intro es hlen hd he hval
    cases es with
    | nil => simp at hlen
    | cons e es =>
      have hlen2 : ds.length = es.length := by simpa using hlen
      rw [digitsVal_cons, digitsVal_cons, hlen2] at hval
      have hVd : digitsVal ds < 10 ^ es.length := by
        rw [← hlen2]
        exact digitsVal_lt ds (fun x hx => hd x (List.mem_cons_of_mem _ hx))
      have hVe : digitsVal es < 10 ^ es.length :=
        digitsVal_lt es (fun x hx => he x (List.mem_cons_of_mem _ hx))
      obtain ⟨hde, hV⟩ := base_inj hVd hVe hval
      have hdc := digit_toNat_bounds (hd d (List.mem_cons_self _ _))
      have hec := digit_toNat_bounds (he e (List.mem_cons_self _ _))
      have : d = e := char_eq_of_toNat_eq (by omega)
      subst this
      rw [ih es hlen2 (fun x hx => hd x (List.mem_cons_of_mem _ hx))
        (fun x hx => he x (List.mem_cons_of_mem _ hx)) hV]

theorem digitChar_toNat {n : Nat} (h : n < 10) : (Nat.digitChar n).toNat = 48 + n := by
  interval_cases n <;> rfl

theorem digitChar_isDigit {n : Nat} (h : n < 10) :
    isDigitChar (Nat.digitChar n) = true := by
  interval_cases n <;> rfl

theorem natToDecimalAux_spec : ∀ fuel n, n < fuel →
    (∀ c ∈ natToDecimalAux fuel n, isDigitChar c = true) ∧
    digitsVal (natToDecimalAux fuel n) = n ∧
    1 ≤ (natToDecimalAux fuel n).length ∧
    ∀ k, 1 ≤ k → n < 10 ^ k → (natToDecimalAux fuel n).length ≤ k := by
  intro fuel
  induction fuel with
  | zero =>
    intro n h
    omega
  | succ fuel ih =>
    intro n hn
    by_cases h10 : n < 10
    · rw [show natToDecimalAux (fuel + 1) n = [Nat.digitChar n] from by
        simp [natToDecimalAux, h10]]
      refine ⟨?_, ?_, by simp, fun k hk _ => by simpa using hk⟩
      · intro c hc
        rw [List.mem_singleton] at hc
        subst hc
        exact digitChar_isDigit h10
      · rw [digitsVal_cons, digitChar_toNat h10]
        simp [digitsVal]
    · have hrec : natToDecimalAux (fuel + 1) n =
          natToDecimalAux fuel (n / 10) ++ [Nat.digitChar (n % 10)] := by
        simp [natToDecimalAux, h10]
      have hdiv : n / 10 < fuel := by omega
      obtain ⟨ihd, ihv, ihl, ihk⟩ := ih (n / 10) hdiv
      have hmod : n % 10 < 10 := by omega
      refine ⟨?_, ?_, ?_, ?_⟩
      · intro c hc
        rw [hrec, List.mem_append] at hc
        rcases hc with hc | hc
        · exact ihd c hc
        · rw [List.mem_singleton] at hc
          subst hc
          exact digitChar_isDigit hmod
      · rw [hrec, digitsVal_append]
        have h1 : digitsVal [Nat.digitChar (n % 10)] = n % 10 := by
          rw [digitsVal_cons, digitChar_toNat hmod]
          simp [digitsVal]
        rw [h1, ihv]
        simp only [List.length_singleton, pow_one]
        omega
      · rw [hrec]
        simp
      · intro k hk hnk
        rw [hrec]
        have hk2 : 2 ≤ k := by
          by_contra hcon
          have hk1 : k = 1 := by omega
          subst hk1
          rw [pow_one] at hnk
          omega
        have hdk : n / 10 < 10 ^ (k - 1) := by
          rw [Nat.div_lt_iff_lt_mul (by omega)]
          calc n < 10 ^ k := hnk
            _ = 10 ^ (k - 1) * 10 := by
              rw [← pow_succ]
              congr 1
              omega
        have := ihk (k - 1) (by omega) hdk
        simp only [List.length_append, List.length_singleton]
        omega

theorem natToDecimal_spec (n : Nat) :
    (∀ c ∈ natToDecimal n, isDigitChar c = true) ∧
    digitsVal (natToDecimal n) = n ∧
    1 ≤ (natToDecimal n).length ∧
    ∀ k, 1 ≤ k → n < 10 ^ k → (natToDecimal n).length ≤ k :=
  natToDecimalAux_spec (n + 1) n (by omega)

theorem padLoop_eq (t : Nat) : ∀ fuel cs, t ≤ cs.length + fuel →
    padLoop t fuel cs = List.replicate (t - cs.length) '0' ++ cs := by
  intro fuel
  induction fuel with
  | zero =>
    intro cs h
    rw [show t - cs.length = 0 from by omega]
    simp [padLoop]
  | succ fuel ih =>
    intro cs h
    by_cases hlt : cs.length < t
    · rw [show padLoop t (fuel + 1) cs = padLoop t fuel ('0' :: cs) from by
        simp [padLoop, hlt]]
      rw [ih ('0' :: cs) (by simp; omega)]
      rw [show ('0' :: cs).length = cs.length + 1 from rfl]
      rw [show t - cs.length = (t - (cs.length + 1)) + 1 from by omega]
      rw [List.replicate_succ']
      simp

    · rw [show padLoop t (fuel + 1) cs = cs from by simp [padLoop, hlt]]
      rw [show t - cs.length = 0 from by omega]
      simp

theorem padWithLeadingZeros_eq (cs : List Char) (t : Nat) :
    padWithLeadingZeros cs t = List.replicate (t - cs.length) '0' ++ cs :=
  padLoop_eq t t cs (by omega)

theorem digitsVal_replicate_zero (m : Nat) :
    digitsVal (List.replicate m '0') = 0 := by
  induction m with
  | zero => rfl
  | succ m ih =>
    rw [List.replicate_succ, digitsVal_cons, ih]
    simp

theorem padDecimal_spec {v k : Nat} (hk : 1 ≤ k) (hv : v < 10 ^ k) :
    (padWithLeadingZeros (natToDecimal v) k).length = k ∧
    (∀ c ∈ padWithLeadingZeros (natToDecimal v) k, isDigitChar c = true) ∧
    digitsVal (padWithLeadingZeros (natToDecimal v) k) = v := by
  obtain ⟨hdig, hval, hlen1, hlenk⟩ := natToDecimal_spec v
  have hlen : (natToDecimal v).length ≤ k := hlenk k hk hv
  rw [padWithLeadingZeros_eq]
  refine ⟨?_, ?_, ?_⟩
  · simp only [List.length_append, List.length_replicate]
    omega
  · intro c hc
    rw [List.mem_append] at hc
    rcases hc with hc | hc
    · rw [List.eq_of_mem_replicate hc]
      rfl
    · exact hdig c hc
  · rw [digitsVal_append, digitsVal_replicate_zero, hval]
    simp

theorem pad_decimal_of_digits {ds : List Char} (h1 : 1 ≤ ds.length)
    (hd : ∀ c ∈ ds, isDigitChar c = true) :
    padWithLeadingZeros (natToDecimal (digitsVal ds)) ds.length = ds := by
  have hv : digitsVal ds < 10 ^ ds.length := digitsVal_lt ds hd
  obtain ⟨hlen, hdig, hval⟩ := padDecimal_spec h1 hv
  exact digitsVal_inj _ ds hlen hdig hd hval

/-! ## String round trip -/

theorem exists_four {l : List Char} (h : l.length = 4) :
    ∃ a b c d, l = [a, b, c, d] := by
  rcases l with _ | ⟨a, _ | ⟨b, _ | ⟨c, _ | ⟨d, _ | ⟨e, t⟩⟩⟩⟩⟩ <;> simp_all

theorem exists_two {l : List Char} (h : l.length = 2) :
    ∃ a b, l = [a, b] := by
  rcases l with _ | ⟨a, _ | ⟨b, _ | ⟨c, t⟩⟩⟩ <;> simp_all

theorem fromString_datumToString {d : Datum} (h : isValid d = true) :
    fromString (datumToString d) = some d := by
  rcases isValid_iff.1 h with ⟨hy, hm1, hm2, hd1, hd31, -⟩
  obtain ⟨hYlen, hYdig, hYval⟩ :=
    padDecimal_spec (v := d.year) (k := 4) (by omega) (by omega)
  obtain ⟨hMlen, hMdig, hMval⟩ :=
    padDecimal_spec (v := d.month) (k := 2) (by omega) (by omega)
  obtain ⟨hDlen, hDdig, hDval⟩ :=
    padDecimal_spec (v := d.day) (k := 2) (by omega) (by omega)
  obtain ⟨y1, y2, y3, y4, hY⟩ := exists_four hYlen
  obtain ⟨m1, m2, hM⟩ := exists_two hMlen
  obtain ⟨d1, d2, hD⟩ := exists_two hDlen
  rw [hY] at hYdig hYval
  rw [hM] at hMdig hMval
  rw [hD] at hDdig hDval
  have hdata : (datumToString d).data = [y1, y2, y3, y4, '-', m1, m2, '-', d1, d2] := by
    simp [datumToString, hY, hM, hD]
  have hstr : datumToString d = ⟨[y1, y2, y3, y4, '-', m1, m2, '-', d1, d2]⟩ := by
    conv_lhs => rw [show datumToString d = ⟨(datumToString d).data⟩ from rfl]
    rw [hdata]
  rw [hstr]
  have hguard : (isDigitChar y1 && isDigitChar y2 && isDigitChar y3 && isDigitChar y4 &&
      ('-' == '-') && isDigitChar m1 && isDigitChar m2 &&
      ('-' == '-') && isDigitChar d1 && isDigitChar d2) = true := by
    simp [hYdig y1 (by simp), hYdig y2 (by simp), hYdig y3 (by simp), hYdig y4 (by simp),
      hMdig m1 (by simp), hMdig m2 (by simp), hDdig d1 (by simp), hDdig d2 (by simp)]
  show (if (isDigitChar y1 && isDigitChar y2 && isDigitChar y3 && isDigitChar y4 &&
      ('-' == '-') && isDigitChar m1 && isDigitChar m2 &&
      ('-' == '-') && isDigitChar d1 && isDigitChar d2) = true then
      mkDatum (digitsVal [y1, y2, y3, y4]) (digitsVal [m1, m2]) (digitsVal [d1, d2])
    else none) = some d
  rw [if_pos hguard, hYval, hMval, hDval]
  exact mkDatum_self h

theorem datumToString_fromString {s : String} {d : Datum} (h : fromString s = some d) :
    datumToString d = s := by
  rcases s with ⟨l⟩
  unfold fromString at h
  split at h
  · rename_i y1 y2 y3 y4 h1 m1 m2 h2 d1 d2 heq
    split at h
    · rename_i hguard
      simp only [Bool.and_eq_true, beq_iff_eq] at hguard
      obtain ⟨⟨⟨⟨⟨⟨⟨⟨⟨hy1, hy2⟩, hy3⟩, hy4⟩, hh1⟩, hm1⟩, hm2⟩, hh2⟩, hd1⟩, hd2⟩ := hguard
      obtain ⟨hvd, rfl⟩ := mkDatum_eq_some.1 h
      have hYdig : ∀ c ∈ [y1, y2, y3, y4], isDigitChar c = true := by
        intro c hc
        simp only [List.mem_cons, List.not_mem_nil, or_false] at hc
        rcases hc with rfl | rfl | rfl | rfl <;> assumption
      have hMdig : ∀ c ∈ [m1, m2], isDigitChar c = true := by
        intro c hc
        simp only [List.mem_cons, List.not_mem_nil, or_false] at hc
        rcases hc with rfl | rfl <;> assumption
      have hDdig : ∀ c ∈ [d1, d2], isDigitChar c = true := by
        intro c hc
        simp only [List.mem_cons, List.not_mem_nil, or_false] at hc
        rcases hc with rfl | rfl <;> assumption
      have hYpad := @pad_decimal_of_digits [y1, y2, y3, y4] (by simp) hYdig
      have hMpad := @pad_decimal_of_digits [m1, m2] (by simp) hMdig
      have hDpad := @pad_decimal_of_digits [d1, d2] (by simp) hDdig
      norm_num at hYpad hMpad hDpad
      have heq2 : l = [y1, y2, y3, y4, h1, m1, m2, h2, d1, d2] := heq
      subst heq2
      subst hh1
      subst hh2
      simp only [datumToString, hYpad, hMpad, hDpad]
      rfl
    · cases h
  · cases h

/-! ## fromString versus the spec-side format description -/

theorem fromString_spec (s : String) :
    (specFormatOk s = false → fromString s = none) ∧
    (specFormatOk s = true →
      fromString s = mkDatum (specYearOf s) (specMonthOf s) (specDayOf s)) := by
  rcases s with ⟨l⟩
  rcases l with _ | ⟨c0, _ | ⟨c1, _ | ⟨c2, _ | ⟨c3, _ | ⟨c4, _ | ⟨c5, _ | ⟨c6, _ |
    ⟨c7, _ | ⟨c8, _ | ⟨c9, rest⟩⟩⟩⟩⟩⟩⟩⟩⟩⟩
  case nil => exact ⟨fun _ => rfl, fun hfmt => by simp [specFormatOk] at hfmt⟩
  case cons.nil => exact ⟨fun _ => rfl, fun hfmt => by simp [specFormatOk] at hfmt⟩
  case cons.cons.nil => exact ⟨fun _ => rfl, fun hfmt => by simp [specFormatOk] at hfmt⟩
  case cons.cons.cons.nil =>
    exact ⟨fun _ => rfl, fun hfmt => by simp [specFormatOk] at hfmt⟩
  case cons.cons.cons.cons.nil =>
    exact ⟨fun _ => rfl, fun hfmt => by simp [specFormatOk] at hfmt⟩
  case cons.cons.cons.cons.cons.nil =>
    exact ⟨fun _ => rfl, fun hfmt => by simp [specFormatOk] at hfmt⟩
  case cons.cons.cons.cons.cons.cons.nil =>
    exact ⟨fun _ => rfl, fun hfmt => by simp [specFormatOk] at hfmt⟩
  case cons.cons.cons.cons.cons.cons.cons.nil =>
    exact ⟨fun _ => rfl, fun hfmt => by simp [specFormatOk] at hfmt⟩
  case cons.cons.cons.cons.cons.cons.cons.cons.nil =>
    exact ⟨fun _ => rfl, fun hfmt => by simp [specFormatOk] at hfmt⟩
  case cons.cons.cons.cons.cons.cons.cons.cons.cons.nil =>
    exact ⟨fun _ => rfl, fun hfmt => by simp [specFormatOk] at hfmt⟩
  case cons.cons.cons.cons.cons.cons.cons.cons.cons.cons =>
    rcases rest with _ | ⟨c10, rest2⟩
    · -- exactly ten characters
      have hiff : specFormatOk ⟨[c0, c1, c2, c3, c4, c5, c6, c7, c8, c9]⟩ =
          (isDigitChar c0 && isDigitChar c1 && isDigitChar c2 && isDigitChar c3 &&
            (c4 == '-') && isDigitChar c5 && isDigitChar c6 &&
            (c7 == '-') && isDigitChar c8 && isDigitChar c9) := by
        simp [specFormatOk]
      refine ⟨fun hfmt => ?_, fun hfmt => ?_⟩
      · rw [hiff] at hfmt
        show (if (isDigitChar c0 && isDigitChar c1 && isDigitChar c2 && isDigitChar c3 &&
            (c4 == '-') && isDigitChar c5 && isDigitChar c6 &&
            (c7 == '-') && isDigitChar c8 && isDigitChar c9) = true then
            mkDatum (digitsVal [c0, c1, c2, c3]) (digitsVal [c5, c6]) (digitsVal [c8, c9])
          else none) = none
        rw [if_neg (by rw [hfmt]; simp)]
      · rw [hiff] at hfmt
        show (if (isDigitChar c0 && isDigitChar c1 && isDigitChar c2 && isDigitChar c3 &&
            (c4 == '-') && isDigitChar c5 && isDigitChar c6 &&
            (c7 == '-') && isDigitChar c8 && isDigitChar c9) = true then
            mkDatum (digitsVal [c0, c1, c2, c3]) (digitsVal [c5, c6]) (digitsVal [c8, c9])
          else none) = mkDatum (specYearOf ⟨[c0, c1, c2, c3, c4, c5, c6, c7, c8, c9]⟩)
            (specMonthOf ⟨[c0, c1, c2, c3, c4, c5, c6, c7, c8, c9]⟩)
            (specDayOf ⟨[c0, c1, c2, c3, c4, c5, c6, c7, c8, c9]⟩)
        rw [if_pos hfmt]
        simp [specYearOf, specMonthOf, specDayOf]
    · -- eleven characters or more
      refine ⟨fun _ => rfl, fun hfmt => ?_⟩
      simp only [specFormatOk, List.length_cons, Bool.and_eq_true, beq_iff_eq] at hfmt
      omega

/-! ## Lexicographic string order -/

theorem char_toNat_eq_iff {a b : Char} : a.toNat = b.toNat ↔ a = b :=
  ⟨char_eq_of_toNat_eq, fun h => by rw [h]⟩

theorem charListLt_cons (a b : Char) (as bs : List Char) :
    charListLt (a :: as) (b :: bs) = true ↔
      a.toNat < b.toNat ∨ (a = b ∧ charListLt as bs = true) := by
  simp only [charListLt, Bool.or_eq_true, Bool.and_eq_true, decide_eq_true_eq,
    beq_iff_eq, char_toNat_eq_iff]

theorem charListLt_append_iff : ∀ {p1 p2 : List Char} (r1 r2 : List Char),
    p1.length = p2.length →
    (charListLt (p1 ++ r1) (p2 ++ r2) = true ↔
      charListLt p1 p2 = true ∨ (p1 = p2 ∧ charListLt r1 r2 = true)) := by
  intro p1
  induction p1 with
  | nil =>
    intro p2 r1 r2 hlen
    cases p2 with
    | nil => simp [charListLt]
    | cons b bs => simp at hlen
  | cons a as ih =>
    intro p2 r1 r2 hlen
    cases p2 with
    | nil => simp at hlen
    | cons b bs =>
      have hlen2 : as.length = bs.length := by simpa using hlen
      simp only [List.cons_append, charListLt_cons, ih r1 r2 hlen2, List.cons.injEq]
      constructor
      · rintro (h | ⟨rfl, h | ⟨rfl, h⟩⟩)
        · exact Or.inl (Or.inl h)
        · exact Or.inl (Or.inr ⟨rfl, h⟩)
        · exact Or.inr ⟨⟨rfl, rfl⟩, h⟩
      · rintro ((h | ⟨rfl, h⟩) | ⟨⟨rfl, rfl⟩, h⟩)
        · exact Or.inl h
        · exact Or.inr ⟨rfl, Or.inl h⟩
        · exact Or.inr ⟨rfl, Or.inr ⟨rfl, h⟩⟩

theorem digitList_lt_iff : ∀ {ds es : List Char}, ds.length = es.length →
    (∀ c ∈ ds, isDigitChar c = true) → (∀ c ∈ es, isDigitChar c = true) →
    (charListLt ds es = true ↔ digitsVal ds < digitsVal es) := by
  intro ds
  induction ds with
  | nil =>
    intro es hlen _ _
    cases es with
    | nil => simp [charListLt, digitsVal]
    | cons e es => simp at hlen
  | cons d ds ih =>
    intro es hlen hd he
    cases es with
    | nil => simp at hlen
    | cons e es =>
      have hlen2 : ds.length = es.length := by simpa using hlen
      have hVd : digitsVal ds < 10 ^ es.length := by
        rw [← hlen2]
        exact digitsVal_lt ds (fun x hx => hd x (List.mem_cons_of_mem _ hx))
      have hVe : digitsVal es < 10 ^ es.length :=
        digitsVal_lt es (fun x hx => he x (List.mem_cons_of_mem _ hx))
      have hdc := digit_toNat_bounds (hd d (List.mem_cons_self _ _))
      have hec := digit_toNat_bounds (he e (List.mem_cons_self _ _))
      rw [charListLt_cons, digitsVal_cons, digitsVal_cons, hlen2,
        base_lt_iff hVd hVe,
        ih hlen2 (fun x hx => hd x (List.mem_cons_of_mem _ hx))
          (fun x hx => he x (List.mem_cons_of_mem _ hx))]
      constructor
      · rintro (h | ⟨rfl, h⟩)
        · exact Or.inl (by omega)
        · exact Or.inr ⟨rfl, h⟩
      · rintro (h | ⟨hde, h⟩)
        · exact Or.inl (by omega)
        · have : d = e := char_eq_of_toNat_eq (by omega)
          exact Or.inr ⟨this, h⟩

theorem digitList_eq_iff {ds es : List Char} (hlen : ds.length = es.length)
    (hd : ∀ c ∈ ds, isDigitChar c = true) (he : ∀ c ∈ es, isDigitChar c = true) :
    ds = es ↔ digitsVal ds = digitsVal es :=
  ⟨fun h => by rw [h], fun h => digitsVal_inj ds es hlen hd he h⟩

theorem stringMk_inj {l1 l2 : List Char} : (⟨l1⟩ : String) = ⟨l2⟩ ↔ l1 = l2 :=
  ⟨fun h => by cases h; rfl, fun h => by rw [h]⟩

theorem isEqual_iff_fields {a b : Datum} :
    isEqual a b = true ↔ a.year = b.year ∧ a.month = b.month ∧ a.day = b.day := by
  simp [isEqual, and_assoc]

theorem append_cons_inj {Ya Yb Ma Mb : List Char} (h : Ya.length = Yb.length) :
    (Ya ++ '-' :: Ma) = (Yb ++ '-' :: Mb) ↔ (Ya = Yb ∧ Ma = Mb) := by
  constructor
  · intro hh
    obtain ⟨h1, h2⟩ := List.append_inj hh h
    simp only [List.cons.injEq, true_and] at h2
    exact ⟨h1, h2⟩
  · rintro ⟨rfl, rfl⟩
    rfl

theorem datumToString_order {a b : Datum} (ha : isValid a = true)
    (hb : isValid b = true) :
    (isBefore a b = true ↔ strLt (datumToString a) (datumToString b) = true) ∧
    (isEqual a b = true ↔ datumToString a = datumToString b) := by
  rcases isValid_iff.1 ha with ⟨hay, ham1, ham2, had1, had31, -⟩
  rcases isValid_iff.1 hb with ⟨hby, hbm1, hbm2, hbd1, hbd31, -⟩
  obtain ⟨hYal, hYad, hYav⟩ := padDecimal_spec (v := a.year) (k := 4) (by omega) (by omega)
  obtain ⟨hMal, hMad, hMav⟩ := padDecimal_spec (v := a.month) (k := 2) (by omega) (by omega)
  obtain ⟨hDal, hDad, hDav⟩ := padDecimal_spec (v := a.day) (k := 2) (by omega) (by omega)
  obtain ⟨hYbl, hYbd, hYbv⟩ := padDecimal_spec (v := b.year) (k := 4) (by omega) (by omega)
  obtain ⟨hMbl, hMbd, hMbv⟩ := padDecimal_spec (v := b.month) (k := 2) (by omega) (by omega)
  obtain ⟨hDbl, hDbd, hDbv⟩ := padDecimal_spec (v := b.day) (k := 2) (by omega) (by omega)
  set Ya := padWithLeadingZeros (natToDecimal a.year) 4 with hYadef
  set Ma := padWithLeadingZeros (natToDecimal a.month) 2 with hMadef
  set Da := padWithLeadingZeros (natToDecimal a.day) 2 with hDadef
  set Yb := padWithLeadingZeros (natToDecimal b.year) 4 with hYbdef
  set Mb := padWithLeadingZeros (natToDecimal b.month) 2 with hMbdef
  set Db := padWithLeadingZeros (natToDecimal b.day) 2 with hDbdef
  have hsa : datumToString a = ⟨(Ya ++ ('-' :: Ma)) ++ ('-' :: Da)⟩ := by
    rw [hYadef, hMadef, hDadef]
    rfl
  have hsb : datumToString b = ⟨(Yb ++ ('-' :: Mb)) ++ ('-' :: Db)⟩ := by
    rw [hYbdef, hMbdef, hDbdef]
    rfl
  have hplen : (Ya ++ ('-' :: Ma)).length = (Yb ++ ('-' :: Mb)).length := by
    simp [hYal, hYbl, hMal, hMbl]
  clear_value Ya Ma Da Yb Mb Db
  have hYeq := digitList_eq_iff (by rw [hYal, hYbl]) hYad hYbd
  have hMeq := digitList_eq_iff (by rw [hMal, hMbl]) hMad hMbd
  have hDeq := digitList_eq_iff (by rw [hDal, hDbl]) hDad hDbd
  constructor
  · have hlt : strLt (datumToString a) (datumToString b) = true ↔
        (digitsVal Ya < digitsVal Yb ∨ (digitsVal Ya = digitsVal Yb ∧
          (digitsVal Ma < digitsVal Mb ∨
            (digitsVal Ma = digitsVal Mb ∧ digitsVal Da < digitsVal Db)))) := by
      rw [show strLt (datumToString a) (datumToString b) =
          charListLt ((Ya ++ ('-' :: Ma)) ++ ('-' :: Da))
            ((Yb ++ ('-' :: Mb)) ++ ('-' :: Db)) from by rw [strLt, hsa, hsb]]
      rw [charListLt_append_iff _ _ hplen,
          charListLt_append_iff _ _ (by rw [hYal, hYbl]),
          charListLt_cons, charListLt_cons,
          digitList_lt_iff (by rw [hYal, hYbl]) hYad hYbd,
          digitList_lt_iff (by rw [hMal, hMbl]) hMad hMbd,
          digitList_lt_iff (by rw [hDal, hDbl]) hDad hDbd,
          append_cons_inj (by rw [hYal, hYbl]), hYeq, hMeq]
      simp only [show ¬ (('-' : Char).toNat < ('-' : Char).toNat) from by omega,
        false_or, true_and]
      tauto
    rw [isBefore_iff, hlt, hYav, hYbv, hMav, hMbv, hDav, hDbv]
    omega
  · have hsplit : ((Ya ++ ('-' :: Ma)) ++ ('-' :: Da)) =
        ((Yb ++ ('-' :: Mb)) ++ ('-' :: Db)) ↔
        (digitsVal Ya = digitsVal Yb ∧ digitsVal Ma = digitsVal Mb ∧
          digitsVal Da = digitsVal Db) := by
      constructor
      · intro h
        obtain ⟨h1, h2⟩ := List.append_inj h hplen
        simp only [List.cons.injEq, true_and] at h2
        obtain ⟨h3, h4⟩ := (append_cons_inj (by rw [hYal, hYbl])).1 h1
        exact ⟨hYeq.1 h3, hMeq.1 h4, hDeq.1 h2⟩
      · rintro ⟨h1, h2, h3⟩
        rw [hYeq.2 h1, hMeq.2 h2, hDeq.2 h3]
    rw [hsa, hsb, stringMk_inj, hsplit, isEqual_iff_fields,
        hYav, hYbv, hMav, hMbv, hDav, hDbv]

/-!
## Claim theorems
-/

/-- C1: every Datum produced by any operation — the constructor
(`mkDatum`), `fromString`, `fromDate`, `addDays`, `subtractDays` —
satisfies calendar validity (`isValid`): `year ≤ 9999` (with `0 ≤ year`
automatic on `Nat`), `1 ≤ month ≤ 12`, and
`1 ≤ day ≤ getDaysInMonth year month` with February's length leap-aware.
Every intermediate date built inside `deltaDays` (and inside the
`addDays`/`subtractDays` loops) is produced by `mkDatum`, so the first
conjunct covers those as well; no operation ever returns an invalid
Datum. -/
theorem c1_validity_invariant :
    (∀ y m d e, mkDatum y m d = some e → isValid e = true) ∧
    (∀ s e, fromString s = some e → isValid e = true) ∧
    (∀ y m0 d e, fromDate y m0 d = some e → isValid e = true) ∧
    (∀ a n e, addDays a n = some e → isValid e = true) ∧
    (∀ a n e, subtractDays a n = some e → isValid e = true) :=
  ⟨fun _ _ _ _ h => mkDatum_valid h, fromString_valid,
    fun _ _ _ _ h => mkDatum_valid h,
    fun a n e h => addDaysLoop_valid (n + 1) a n e h,
    fun a n e h => subDaysLoop_valid (n + 1) a n e h⟩

/-- Witness for C1 at concrete inputs. -/
theorem c1_witness : isValid ⟨2019, 8, 26⟩ = true ∧ isValid ⟨2029, 1, 1⟩ = true :=
  ⟨c1_validity_invariant.1 2019 8 26 ⟨2019, 8, 26⟩ (by decide),
   c1_validity_invariant.2.2.2.1 ⟨2028, 12, 30⟩ 2 ⟨2029, 1, 1⟩ (by decide)⟩

/-- C2: string-conversion round trip.  For every valid Datum `d`,
`fromString (toString d) = d`; and for every string `s` accepted by
`fromString` (which by C6 is exactly length 10, digit pattern
`YYYY-MM-DD`, calendar-valid), `toString (fromString s) = s`. -/
theorem c2_string_roundtrip :
    (∀ d : Datum, isValid d = true → fromString (datumToString d) = some d) ∧
    (∀ (s : String) (d : Datum), fromString s = some d → datumToString d = s) :=
  ⟨fun _ h => fromString_datumToString h, fun _ _ h => datumToString_fromString h⟩

/-- Witness for C2 at concrete inputs. -/
theorem c2_witness :
    fromString (datumToString ⟨1988, 9, 11⟩) = some ⟨1988, 9, 11⟩ ∧
    datumToString ⟨600, 3, 27⟩ = "0600-03-27" :=
  ⟨c2_string_roundtrip.1 ⟨1988, 9, 11⟩ (by decide),
   c2_string_roundtrip.2 "0600-03-27" ⟨600, 3, 27⟩ (by decide)⟩

/-- C3 as stated is false on the code: at the calendar's upper bound the
inner `addDays` fails (throws, modelled `none`), so
`Datum(9999,12,31).addDays(1).subtractDays(1)` does not equal the
original date — it does not produce a date at all. -/
theorem c3_counterexample :
    isValid ⟨9999, 12, 31⟩ = true ∧
    (addDays ⟨9999, 12, 31⟩ 1).bind (fun e => subtractDays e 1) ≠
      some ⟨9999, 12, 31⟩ := by
  decide

/-- C3 amended: for every valid Datum `d` and non-negative integer `n`
such that `d.addDays(n)` succeeds, `d.addDays(n).subtractDays(n)` equals
`d`. -/
theorem c3_add_subtract_inverse :
    ∀ (d : Datum) (n : Nat) (e : Datum), isValid d = true →
      addDays d n = some e → subtractDays e n = some d := by
  intro d n e hv hadd
  obtain ⟨hev, heo⟩ := addDays_some hv hadd
  have hd1 : 1 ≤ toOrdinal d := toOrdinal_pos hv
  obtain ⟨f, hf, hfv, hfo⟩ := (subtractDays_spec hev n).1 (by omega)
  have hfd : f = d := toOrdinal_inj hfv hv (by omega)
  rw [hfd] at hf
  exact hf

/-- Witness for C3's amended statement at a concrete input. -/
theorem c3_witness : subtractDays ⟨2029, 1, 1⟩ 2 = some ⟨2028, 12, 30⟩ :=
  c3_add_subtract_inverse ⟨2028, 12, 30⟩ 2 ⟨2029, 1, 1⟩ (by decide) (by decide)

/-- C4: `deltaDays` is symmetric, and for `a` before `b`,
`a.addDays(a.deltaDays(b)) = b`. -/
theorem c4_deltaDays_symm_addDays :
    ∀ a b : Datum, isValid a = true → isValid b = true →
      deltaDays a b = deltaDays b a ∧
      (isBefore a b = true → ∀ n, deltaDays a b = some n → addDays a n = some b) := by
  intro a b ha hb
  constructor
  · rw [deltaDays_eq_dist ha hb, deltaDays_eq_dist hb ha, Nat.dist_comm]
  · intro hbef n hdelta
    rw [deltaDays_eq_dist ha hb] at hdelta
    cases hdelta
    have hlt : toOrdinal a < toOrdinal b := toOrdinal_lt_of_isBefore ha hb hbef
    have harith : toOrdinal a + Nat.dist (toOrdinal a) (toOrdinal b) = toOrdinal b := by
      simp [Nat.dist]
      omega
    have hmax : toOrdinal b ≤ maxOrdinal := toOrdinal_le_max hb
    obtain ⟨e, he, hev, heo⟩ :=
      (addDays_spec ha (Nat.dist (toOrdinal a) (toOrdinal b))).1 (by omega)
    have heb : e = b := toOrdinal_inj hev hb (by omega)
    rw [heb] at he
    exact he

/-- Witness for C4 at concrete inputs. -/
theorem c4_witness :
    deltaDays ⟨2028, 5, 29⟩ ⟨2028, 10, 9⟩ = deltaDays ⟨2028, 10, 9⟩ ⟨2028, 5, 29⟩ ∧
    addDays ⟨2028, 5, 29⟩ 133 = some ⟨2028, 10, 9⟩ :=
  ⟨(c4_deltaDays_symm_addDays ⟨2028, 5, 29⟩ ⟨2028, 10, 9⟩ (by decide) (by decide)).1,
   (c4_deltaDays_symm_addDays ⟨2028, 5, 29⟩ ⟨2028, 10, 9⟩ (by decide) (by decide)).2
     (by decide) 133 (by decide)⟩

set_option maxRecDepth 4000 in
/-- C5: for every valid Datum, `weekday` computes the unsigned
`deltaDays` to the fixed reference Monday 2019-08-26, takes it modulo 7
and maps the remainder through the forward table (dates on/after the
reference) or the flipped backward table (dates before it); in
particular the weekday is always defined (no invariant fault), and
2019-08-26 and 2019-08-19 map to Monday and 1988-09-11 to Sunday. -/
theorem c5_weekday :
    (∀ d : Datum, isValid d = true →
      ∃ delta, deltaDays d ⟨2019, 8, 26⟩ = some delta ∧
        weekday d = some (if isBefore d ⟨2019, 8, 26⟩ then
          specBackwardWeekday (delta % 7) else specForwardWeekday (delta % 7))) ∧
    weekday ⟨2019, 8, 26⟩ = some .monday ∧
    weekday ⟨2019, 8, 19⟩ = some .monday ∧
    weekday ⟨1988, 9, 11⟩ = some .sunday := by
  refine ⟨?_, by decide, by decide, by decide⟩
  intro d hv
  have href : isValid ⟨2019, 8, 26⟩ = true := by decide
  have hdelta := deltaDays_eq_dist hv href
  refine ⟨_, hdelta, ?_⟩
  have hmk : mkDatum 2019 8 26 = some ⟨2019, 8, 26⟩ := by decide
  simp only [weekday, hmk, hdelta]
  have h7 : Nat.dist (toOrdinal d) (toOrdinal ⟨2019, 8, 26⟩) % 7 < 7 :=
    Nat.mod_lt _ (by omega)
  set m := Nat.dist (toOrdinal d) (toOrdinal ⟨2019, 8, 26⟩) % 7 with hm
  by_cases hbef : isBefore d ⟨2019, 8, 26⟩ = true
  · rw [if_pos hbef, if_pos hbef]
    interval_cases m <;> rfl
  · rw [if_neg hbef, if_neg hbef]
    interval_cases m <;> rfl

set_option maxRecDepth 4000 in
/-- Witness for C5's universal part at a concrete input. -/
theorem c5_witness :
    ∃ delta, deltaDays ⟨1988, 9, 11⟩ ⟨2019, 8, 26⟩ = some delta ∧
      weekday ⟨1988, 9, 11⟩ = some (if isBefore ⟨1988, 9, 11⟩ ⟨2019, 8, 26⟩ then
        specBackwardWeekday (delta % 7) else specForwardWeekday (delta % 7)) :=
  c5_weekday.1 ⟨1988, 9, 11⟩ (by decide)

/-- C6: `fromString` fails on every string that does not have length 10
or does not match `^\d{4}-\d\d-\d\d$` (described by `specFormatOk`), and
on every well-formed string it parses the three groups in base 10 and
delegates to the validating constructor, so the calendar-invalid
"2019-02-30" — although well-formed — also fails. -/
theorem c6_fromString_errors :
    (∀ s : String, specFormatOk s = false → fromString s = none) ∧
    (∀ s : String, specFormatOk s = true →
      fromString s = mkDatum (specYearOf s) (specMonthOf s) (specDayOf s)) ∧
    specFormatOk "2019-02-30" = true ∧ fromString "2019-02-30" = none :=
  ⟨fun s => (fromString_spec s).1, fun s => (fromString_spec s).2,
   by decide, by decide⟩

/-- Witness for C6 at concrete inputs. -/
theorem c6_witness :
    fromString "2019-2-30" = none ∧
    fromString "2019-08-26" =
      mkDatum (specYearOf "2019-08-26") (specMonthOf "2019-08-26")
        (specDayOf "2019-08-26") :=
  ⟨c6_fromString_errors.1 "2019-2-30" (by decide),
   c6_fromString_errors.2.1 "2019-08-26" (by decide)⟩

/-- C7: `isLeapYear` implements the Gregorian rule (divisible by 4 and
not by 100, or divisible by 400) for every year in range, and
`getDaysInMonth` agrees with the spec's fixed table
`[31, 28/29, 31, 30, 31, 30, 31, 31, 30, 31, 30, 31]` on every month in
1..12, with February's entry 29 exactly when `isLeapYear` holds. -/
theorem c7_leap_table :
    ∀ year : Nat, year ≤ 9999 →
      (isLeapYear year = true ↔ ((year % 4 = 0 ∧ year % 100 ≠ 0) ∨ year % 400 = 0)) ∧
      (∀ month, 1 ≤ month → month ≤ 12 →
        getDaysInMonth year month = specDaysInMonth year month) ∧
      (getDaysInMonth year 2 = 29 ↔ isLeapYear year = true) := by
  intro year _
  refine ⟨?_, ?_, ?_⟩
  · simp [isLeapYear]
  · intro month h1 h2
    interval_cases month <;> rfl
  · cases hleap : isLeapYear year with
    | true => simp [getDaysInMonth, hleap]
    | false => simp [getDaysInMonth, hleap]

/-- Witness for C7 at concrete inputs. -/
theorem c7_witness :
    getDaysInMonth 2016 2 = specDaysInMonth 2016 2 ∧
    (isLeapYear 2016 = true ↔ ((2016 % 4 = 0 ∧ 2016 % 100 ≠ 0) ∨ 2016 % 400 = 0)) :=
  ⟨(c7_leap_table 2016 (by decide)).2.1 2 (by decide) (by decide),
   (c7_leap_table 2016 (by decide)).1⟩

/-- C8: `min` and `max` return no value exactly on the empty sequence;
otherwise `min` returns an element of the sequence that no other element
`isBefore`, and `max` one that no other element `isAfter`. -/
theorem c8_min_max :
    ∀ l : List Datum,
      (minDatum l = none ↔ l = []) ∧ (maxDatum l = none ↔ l = []) ∧
      (∀ m, minDatum l = some m → m ∈ l ∧ ∀ x ∈ l, isBefore x m = false) ∧
      (∀ m, maxDatum l = some m → m ∈ l ∧ ∀ x ∈ l, isAfter x m = false) :=
  fun l => ⟨(minDatum_spec l).1, (maxDatum_spec l).1,
    (minDatum_spec l).2, (maxDatum_spec l).2⟩

/-- Witness for C8 at a concrete input. -/
theorem c8_witness :
    (⟨1373, 10, 11⟩ : Datum) ∈
      ([⟨2019, 8, 29⟩, ⟨1373, 10, 11⟩, ⟨1988, 9, 11⟩] : List Datum) :=
  ((c8_min_max [⟨2019, 8, 29⟩, ⟨1373, 10, 11⟩, ⟨1988, 9, 11⟩]).2.2.1
    ⟨1373, 10, 11⟩ (by decide)).1

/-- C9: `addDays` can fail on valid input at the calendar's upper bound:
`Datum(9999,12,31).addDays(1)` fails with the year-range validation
error; precisely, for valid `d` and `n ≥ 0`, `addDays` succeeds exactly
when the date `n` days after `d` (day number `toOrdinal d + n`) is no
later than 9999-12-31 (day number `maxOrdinal`). -/
theorem c9_addDays_upper_bound :
    (∀ (d : Datum) (n : Nat), isValid d = true →
      ((addDays d n).isSome = true ↔ toOrdinal d + n ≤ maxOrdinal)) ∧
    addDays ⟨9999, 12, 31⟩ 1 = none := by
  constructor
  · intro d n hv
    constructor
    · intro hs
      by_contra hgt
      rw [(addDays_spec hv n).2 (by omega)] at hs
      cases hs
    · intro hle
      obtain ⟨e, he, -, -⟩ := (addDays_spec hv n).1 hle
      rw [he]
      rfl
  · decide

/-- Witness for C9's universal part at a concrete input. -/
theorem c9_witness :
    (addDays ⟨9999, 12, 31⟩ 1).isSome = true ↔
      toOrdinal ⟨9999, 12, 31⟩ + 1 ≤ maxOrdinal :=
  c9_addDays_upper_bound.1 ⟨9999, 12, 31⟩ 1 (by decide)

/-- C10: the fixed-width zero-padded string form is an order embedding:
for valid Datums, `isBefore` agrees with strict lexicographic comparison
of the `toString` forms, and `isEqual` with string equality. -/
theorem c10_string_order_embedding :
    ∀ a b : Datum, isValid a = true → isValid b = true →
      (isBefore a b = true ↔ strLt (datumToString a) (datumToString b) = true) ∧
      (isEqual a b = true ↔ datumToString a = datumToString b) :=
  fun _ _ ha hb => datumToString_order ha hb

/-- Witness for C10 at concrete inputs. -/
theorem c10_witness :
    (isBefore ⟨1988, 9, 11⟩ ⟨2019, 8, 26⟩ = true ↔
      strLt (datumToString ⟨1988, 9, 11⟩) (datumToString ⟨2019, 8, 26⟩) = true) ∧
    (isEqual ⟨1988, 9, 11⟩ ⟨2019, 8, 26⟩ = true ↔
      datumToString ⟨1988, 9, 11⟩ = datumToString ⟨2019, 8, 26⟩) :=
  c10_string_order_embedding ⟨1988, 9, 11⟩ ⟨2019, 8, 26⟩ (by decide) (by decide)

end DatumLib
